import Mathlib

set_option linter.unusedSectionVars false

/-!
Verification development for the `keyed-mutex` package.

The registry layer (`KeyedMutex.track` / `subRef` / `trackLock` in
`src/core/KeyedMutex.ts`, and the analogous `AsyncKeyedMutex.track` in
`src/core/AsyncKeyedMutex.ts`) is embedded directly from the source.
The per-key shared/exclusive lock itself is provided by the external
package `async-shared-mutex` (`SharedMutex` / `AsyncSharedMutex`), which
is not part of this repository; its state machine is modelled from the
spec (§4.1 fairness/ordering policy).

The JavaScript `Map<K, [mutex, refCount]>` is embedded as an association
list with the insertion-order semantics of a JS `Map`: `set` on an absent
key appends, `set` on a present key replaces in place, `delete` removes
the entry.
-/

namespace KeyedMutexModel

/-- JS `Map.get`: the value stored at key `k`, if present. -/
def mapGet {K V : Type} [DecidableEq K] : List (K × V) → K → Option V
  | [], _ => none
  | (k', v) :: rest, k => if k = k' then some v else mapGet rest k

/-- JS `Map.set`: replace the value at `k` in place when present, else append. -/
def mapSet {K V : Type} [DecidableEq K] : List (K × V) → K → V → List (K × V)
  | [], k, v => [(k, v)]
  | (k', v') :: rest, k, v =>
    if k = k' then (k, v) :: rest else (k', v') :: mapSet rest k v

/-- JS `Map.delete`: remove the entry at `k` (keys are unique in a JS Map). -/
def mapDelete {K V : Type} [DecidableEq K] : List (K × V) → K → List (K × V)
  | [], _ => []
  | (k', v') :: rest, k =>
    if k = k' then rest else (k', v') :: mapDelete rest k

/-- Kind of a lock request: shared (reader) or exclusive (writer). -/
inductive ReqKind where
  | sh
  | ex
deriving DecidableEq, Repr

/-- A queued request, tagged with the request id and its kind. -/
structure WaitReq where
  rid : Nat
  kind : ReqKind
deriving DecidableEq, Repr

/-- Modelled from the spec: the holder state of a per-key lock, one of
Idle, SharedHeld(n) or ExclusiveHeld (spec §3, §4.1). The per-key lock
(`SharedMutex` of the external `async-shared-mutex` package) is not in
this repository's sources. -/
inductive HolderState where
  | idle
  | sharedHeld (n : Nat)
  | exclusiveHeld
deriving DecidableEq, Repr

/-- Modelled from the spec: the per-key shared/exclusive lock state machine
(spec §4.1): a holder state plus a FIFO wait queue of pending requests. -/
structure SharedMutex where
  holder : HolderState
  waitQueue : List WaitReq
deriving DecidableEq, Repr

/-- A freshly constructed per-key lock: Idle with an empty wait queue. -/
def SharedMutex.new : SharedMutex := ⟨.idle, []⟩

/-- Whether the holder state admits one more shared holder (Idle or SharedHeld). -/
def HolderState.sharedCompatible : HolderState → Bool
  | .idle => true
  | .sharedHeld _ => true
  | .exclusiveHeld => false

/-- Add one shared holder to the holder state. -/
def HolderState.incShared : HolderState → HolderState
  | .idle => .sharedHeld 1
  | .sharedHeld n => .sharedHeld (n + 1)
  | .exclusiveHeld => .exclusiveHeld

/-- No exclusive request is queued (so a new shared request may batch in). -/
def SharedMutex.noExclWaiting (m : SharedMutex) : Bool :=
  m.waitQueue.all (fun r => r.kind == .sh)

/-- Modelled from the spec: an exclusive try succeeds only if the state is
Idle with no queued waiters (spec §4.1 rule on `tryAcquireExclusive`). -/
def SharedMutex.canGrantEx (m : SharedMutex) : Bool :=
  m.holder == .idle && m.waitQueue.isEmpty

/-- Modelled from the spec: a shared request is granted immediately iff the
state is Idle or SharedHeld and no exclusive request is queued ahead of it
(spec §4.1 rules 2 and 3). -/
def SharedMutex.canGrantSh (m : SharedMutex) : Bool :=
  m.holder.sharedCompatible && m.noExclWaiting

/-- Grant an exclusive request immediately: holder becomes ExclusiveHeld. -/
def SharedMutex.grantEx (m : SharedMutex) : SharedMutex :=
  { m with holder := .exclusiveHeld }

/-- Grant a shared request immediately: one more shared holder. -/
def SharedMutex.grantSh (m : SharedMutex) : SharedMutex :=
  { m with holder := m.holder.incShared }

/-- Append a pending request at the tail of the FIFO wait queue. -/
def SharedMutex.enqueue (m : SharedMutex) (r : WaitReq) : SharedMutex :=
  { m with waitQueue := m.waitQueue ++ [r] }

/-- Modelled from the spec: when the lock falls Idle, promote the head of the
wait queue — a head exclusive request acquires alone; a head shared request
is granted together with the maximal run of shared requests behind it
(readers batch until the next queued writer, spec §4.1 rules 1-4).
Returns the new lock state and the requests granted, in grant order. -/
def SharedMutex.promote (m : SharedMutex) : SharedMutex × List WaitReq :=
  match m.waitQueue with
  | [] => (m, [])
  | r :: rest =>
    match r.kind with
    | .ex => (⟨.exclusiveHeld, rest⟩, [r])
    | .sh =>
      let batch := (r :: rest).takeWhile (fun x => x.kind == .sh)
      (⟨.sharedHeld batch.length, (r :: rest).dropWhile (fun x => x.kind == .sh)⟩, batch)

/-- Modelled from the spec: exclusive release transitions to Idle and promotes
the head of the wait queue (spec §4.1 `release`). -/
def SharedMutex.releaseEx (m : SharedMutex) : SharedMutex × List WaitReq :=
  match m.holder with
  | .exclusiveHeld => SharedMutex.promote ⟨.idle, m.waitQueue⟩
  | _ => (m, [])

/-- Modelled from the spec: shared release decrements the shared holder count;
only when it reaches zero does promotion occur (spec §4.1 `release`). -/
def SharedMutex.releaseSh (m : SharedMutex) : SharedMutex × List WaitReq :=
  match m.holder with
  | .sharedHeld 1 => SharedMutex.promote ⟨.idle, m.waitQueue⟩
  | .sharedHeld (n + 2) => (⟨.sharedHeld (n + 1), m.waitQueue⟩, [])
  | _ => (m, [])

/-- A lock handle issued by `KeyedMutex.trackLock`: the wrapped `LockHandle`
together with the closure-captured `unlocked` flag (`KeyedMutex.ts` line 65). -/
structure KHandle (K : Type) where
  hid : Nat
  key : K
  kind : ReqKind
  unlocked : Bool
deriving DecidableEq, Repr

/-- State of a `KeyedMutex` instance: the `mutexRefs` map of
`key ↦ [mutex, refCount]` (`KeyedMutex.ts` line 4), the handles issued so
far (with their `unlocked` flags), a log of granted request ids in grant
order, and a fresh-id counter for naming requests. -/
structure KMState (K : Type) where
  mutexRefs : List (K × SharedMutex × Nat)
  handles : List (KHandle K)
  grants : List Nat
  nextId : Nat
deriving DecidableEq, Repr

/-- A freshly constructed `KeyedMutex`: empty map, no handles. -/
def KMState.init (K : Type) : KMState K := ⟨[], [], [], 0⟩

variable {K : Type} [DecidableEq K]

/-- `KeyedMutex.track` (`KeyedMutex.ts` lines 38-47): fetch the entry for
`key`, creating `[new SharedMutex(), 0]` when absent, then increment its
refCount. Returns the mutex seen by the caller and the updated state.
The `subRef` closure the source returns is embedded key-addressed (see
`subRefMap`): on every reachable state an un-consumed `subRef` closure's
captured entry is exactly the entry currently stored at its key, because
the entry is only replaced after its refCount has returned to zero. -/
def KMState.track (s : KMState K) (k : K) : SharedMutex × KMState K :=
  let mutexRef :=
    match mapGet s.mutexRefs k with
    | some mr => mr
    | none => (SharedMutex.new, 0)
  (mutexRef.1, { s with mutexRefs := mapSet s.mutexRefs k (mutexRef.1, mutexRef.2 + 1) })

/-- The `subRef` closure of `KeyedMutex.track` (`KeyedMutex.ts` lines 49-57):
if the entry's refCount is 1 the entry is deleted from the map, otherwise
the refCount is decremented in place. -/
def subRefMap (refs : List (K × SharedMutex × Nat)) (k : K) :
    List (K × SharedMutex × Nat) :=
  match mapGet refs k with
  | none => refs
  | some (m, refCount) =>
    if refCount = 1 then mapDelete refs k
    else mapSet refs k (m, refCount - 1)

/-- Replace the mutex stored at `k`, keeping its refCount (the source mutates
the mutex object held inside the map entry in place). -/
def setMutexAt (refs : List (K × SharedMutex × Nat)) (k : K) (m : SharedMutex) :
    List (K × SharedMutex × Nat) :=
  match mapGet refs k with
  | none => refs
  | some (_, rc) => mapSet refs k (m, rc)

/-- Record freshly granted requests: each becomes a live handle (wrapped by
`trackLock` with `unlocked := false`) and is appended to the grant log. -/
def KMState.issue (s : KMState K) (k : K) (reqs : List WaitReq) : KMState K :=
  { s with
    handles := s.handles ++ reqs.map (fun r => ⟨r.rid, k, r.kind, false⟩),
    grants := s.grants ++ reqs.map (fun r => r.rid) }

/-- Outcome of an acquisition call: an immediately granted handle, a queued
request (the returned promise is still pending), or the `null` of a failed
try-variant. -/
inductive AcqResult where
  | granted (hid : Nat)
  | pendingReq (rid : Nat)
  | unavailable
deriving DecidableEq, Repr

/-- `KeyedMutex.lock` (`KeyedMutex.ts` lines 6-9): track the key, then await
`mutex.lock()` — granted at once when the lock is Idle with an empty queue,
otherwise the request joins the FIFO wait queue. -/
def KMState.lock (s : KMState K) (k : K) : KMState K × AcqResult :=
  let m := (s.track k).1
  let s1 := (s.track k).2
  let rid := s1.nextId
  if m.canGrantEx then
    let s2 := { s1 with mutexRefs := setMutexAt s1.mutexRefs k m.grantEx, nextId := rid + 1 }
    (s2.issue k [⟨rid, .ex⟩], .granted rid)
  else
    let s2 := { s1 with
      mutexRefs := setMutexAt s1.mutexRefs k (m.enqueue ⟨rid, .ex⟩), nextId := rid + 1 }
    (s2, .pendingReq rid)

/-- `KeyedMutex.tryLock` (`KeyedMutex.ts` lines 11-20): track the key, attempt
`mutex.tryLock()`; on `null` call `subRef()` and return `null`. -/
def KMState.tryLock (s : KMState K) (k : K) : KMState K × AcqResult :=
  let m := (s.track k).1
  let s1 := (s.track k).2
  if m.canGrantEx then
    let rid := s1.nextId
    let s2 := { s1 with mutexRefs := setMutexAt s1.mutexRefs k m.grantEx, nextId := rid + 1 }
    (s2.issue k [⟨rid, .ex⟩], .granted rid)
  else
    ({ s1 with mutexRefs := subRefMap s1.mutexRefs k }, .unavailable)

/-- `KeyedMutex.lockShared` (`KeyedMutex.ts` lines 22-25): track the key, then
await `mutex.lockShared()` — granted at once when sharable and no exclusive
request is queued, otherwise queued. -/
def KMState.lockShared (s : KMState K) (k : K) : KMState K × AcqResult :=
  let m := (s.track k).1
  let s1 := (s.track k).2
  let rid := s1.nextId
  if m.canGrantSh then
    let s2 := { s1 with mutexRefs := setMutexAt s1.mutexRefs k m.grantSh, nextId := rid + 1 }
    (s2.issue k [⟨rid, .sh⟩], .granted rid)
  else
    let s2 := { s1 with
      mutexRefs := setMutexAt s1.mutexRefs k (m.enqueue ⟨rid, .sh⟩), nextId := rid + 1 }
    (s2, .pendingReq rid)

/-- `KeyedMutex.tryLockShared` (`KeyedMutex.ts` lines 27-36): track the key,
attempt `mutex.tryLockShared()`; on `null` call `subRef()` and return `null`. -/
def KMState.tryLockShared (s : KMState K) (k : K) : KMState K × AcqResult :=
  let m := (s.track k).1
  let s1 := (s.track k).2
  if m.canGrantSh then
    let rid := s1.nextId
    let s2 := { s1 with mutexRefs := setMutexAt s1.mutexRefs k m.grantSh, nextId := rid + 1 }
    (s2.issue k [⟨rid, .sh⟩], .granted rid)
  else
    ({ s1 with mutexRefs := subRefMap s1.mutexRefs k }, .unavailable)

/-- Release of the underlying per-key lock for a handle of the given kind. -/
def SharedMutex.releaseKind (m : SharedMutex) : ReqKind → SharedMutex × List WaitReq
  | .ex => m.releaseEx
  | .sh => m.releaseSh

/-- The handle release issued by `KeyedMutex.trackLock` (`KeyedMutex.ts`
lines 64-73): if the `unlocked` flag is set, return at once; otherwise set
the flag, call `subCount()` and then `lock.unlock()`, which may promote
queued requests. When `subRef` has just evicted the entry (refCount was 1)
the wait queue of the discarded mutex is empty on every reachable state, so
the underlying `unlock` promotes nothing; the embedding skips it.
Returns the promoted requests alongside the new state. -/
def KMState.unlockR (s : KMState K) (hid : Nat) : KMState K × List WaitReq :=
  match s.handles.find? (fun h => h.hid == hid) with
  | none => (s, [])
  | some h =>
    if h.unlocked then (s, [])
    else
      let s1 := { s with
        handles := s.handles.map
          (fun (g : KHandle K) => if g.hid = hid then { g with unlocked := true } else g) }
      let refs1 := subRefMap s1.mutexRefs h.key
      match mapGet refs1 h.key with
      | none => ({ s1 with mutexRefs := refs1 }, [])
      | some (m, _) =>
        let mr := m.releaseKind h.kind
        (KMState.issue { s1 with mutexRefs := setMutexAt refs1 h.key mr.1 } h.key mr.2, mr.2)

/-- Handle release, state part only. -/
def KMState.unlock (s : KMState K) (hid : Nat) : KMState K :=
  (s.unlockR hid).1

/-- A call on the public surface of `KeyedMutex`: the four acquisition
methods, and `unlock()` on a previously issued handle. -/
inductive Op (K : Type) where
  | lock (k : K)
  | tryLock (k : K)
  | lockShared (k : K)
  | tryLockShared (k : K)
  | unlock (hid : Nat)
deriving DecidableEq, Repr

/-- One public call applied to the state (result discarded). -/
def KMState.step (s : KMState K) : Op K → KMState K
  | .lock k => (s.lock k).1
  | .tryLock k => (s.tryLock k).1
  | .lockShared k => (s.lockShared k).1
  | .tryLockShared k => (s.tryLockShared k).1
  | .unlock hid => s.unlock hid

/-- The state reached from a fresh `KeyedMutex` by a sequence of public calls. -/
def KMState.run (ops : List (Op K)) : KMState K :=
  ops.foldl KMState.step (KMState.init K)

/-- Well-formedness of a `mutexRefs` map, automatic for a JS `Map`: keys are
unique; every stored refCount is positive (the registry invariant). -/
def refsWF (refs : List (K × SharedMutex × Nat)) : Prop :=
  (refs.map Prod.fst).Nodup ∧ ∀ e ∈ refs, 0 < e.2.2

instance (refs : List (K × SharedMutex × Nat)) : Decidable (refsWF refs) := by
  unfold refsWF; infer_instance

/-- The refCount currently stored for a key, if the key is present. -/
def KMState.refCountAt (s : KMState K) (k : K) : Option Nat :=
  (mapGet s.mutexRefs k).map (fun p => p.2)

/-- The per-key lock currently stored for a key, if the key is present. -/
def KMState.mutexAt (s : KMState K) (k : K) : Option SharedMutex :=
  (mapGet s.mutexRefs k).map (fun p => p.1)

/-- Whether an acquisition outcome is an immediately granted handle. -/
def AcqResult.isGranted : AcqResult → Bool
  | .granted _ => true
  | _ => false

/-- Acquire (shared or exclusive) a key and, as soon as the handle is granted,
release it — one iteration of the transient-key pattern in the gc tests. -/
def acquireRelease (s : KMState K) (p : K × ReqKind) : KMState K :=
  let r :=
    match p.2 with
    | .ex => s.lock p.1
    | .sh => s.lockShared p.1
  match r.2 with
  | .granted hid => r.1.unlock hid
  | _ => r.1

/-- Run the transient-key pattern over a list of keys from a fresh mutex:
each key is acquired with the given kind and immediately fully released. -/
def runRounds (ps : List (K × ReqKind)) : KMState K :=
  ps.foldl acquireRelease (KMState.init K)

/-- The outcome of a caller-supplied task: a value, or a raised fault. -/
abbrev TaskOutcome (E T : Type) := Except E T

namespace AsyncWrapper

/-- `AsyncKeyedMutex.run` of the `KeyedMutex`-wrapping implementation
(`src/unnamed/part_001` lines 36-43): `try { return await task() } finally
{ handle.unlock() }` — the handle is released on both exit paths and the
task's outcome (value or fault) is returned unchanged. -/
def run {E T : Type} (s : KMState K) (hid : Nat) (t : TaskOutcome E T) :
    KMState K × TaskOutcome E T :=
  match t with
  | .ok v => (s.unlock hid, .ok v)
  | .error e => (s.unlock hid, .error e)

end AsyncWrapper

/-! The two `AsyncKeyedMutex` implementations, as labelled transition
systems over the same event alphabet: the four acquisition calls (each
naming the submitted task by a task id) and the completion of a running
task. The standalone implementation (`src/core/AsyncKeyedMutex.ts`) keeps
its own `key ↦ [AsyncSharedMutex, refCount]` map and decrements through a
`finally` wrapped around the task; the wrapper implementation
(`src/unnamed/part_001`) delegates to a `KeyedMutex` and releases the
handle in the `finally` of its private `run`. -/

/-- A call on the public surface of an `AsyncKeyedMutex`: the four
acquisition methods (naming the submitted task by a task id), and the
completion of a previously started task. -/
inductive AsyncOp (K : Type) where
  | lock (k : K) (tid : Nat)
  | tryLock (k : K) (tid : Nat)
  | lockShared (k : K) (tid : Nat)
  | tryLockShared (k : K) (tid : Nat)
  | finish (tid : Nat)
deriving DecidableEq, Repr

namespace AsyncStandalone

/-- State of the standalone `AsyncKeyedMutex`
(`src/core/AsyncKeyedMutex.ts` line 4): its own `mutexRefs` map — the
external `AsyncSharedMutex` spec-modelled by the same shared/exclusive
state machine, with queued entries naming the waiting task directly —
plus the running tasks (task id, key, kind) and the log of task ids whose
try-variant returned `null`. -/
structure ASMState (K : Type) where
  mutexRefs : List (K × SharedMutex × Nat)
  running : List (Nat × K × ReqKind)
  nullResults : List Nat
deriving DecidableEq, Repr

/-- A freshly constructed standalone `AsyncKeyedMutex`. -/
def ASMState.init (K : Type) : ASMState K := ⟨[], [], []⟩

variable {K : Type} [DecidableEq K]

/-- `AsyncKeyedMutex.track` (`AsyncKeyedMutex.ts` lines 30-49): identical
refCount bookkeeping to `KeyedMutex.track`; the `subRef` closure is
embedded key-addressed exactly as there. -/
def ASMState.track (s : ASMState K) (k : K) : SharedMutex × ASMState K :=
  let mutexRef :=
    match mapGet s.mutexRefs k with
    | some mr => mr
    | none => (SharedMutex.new, 0)
  (mutexRef.1, { s with mutexRefs := mapSet s.mutexRefs k (mutexRef.1, mutexRef.2 + 1) })

/-- `AsyncKeyedMutex.lock` (`AsyncKeyedMutex.ts` lines 6-9):
`mutex.lock(trackedTask)` — the task starts at once when grantable,
otherwise it queues; the wrapped `trackedTask` runs `subRef` in its
`finally` once the task completes. -/
def ASMState.lock (s : ASMState K) (k : K) (tid : Nat) : ASMState K :=
  let m := (s.track k).1
  let s1 := (s.track k).2
  if m.canGrantEx then
    { s1 with mutexRefs := setMutexAt s1.mutexRefs k m.grantEx,
              running := s1.running ++ [(tid, k, .ex)] }
  else
    { s1 with mutexRefs := setMutexAt s1.mutexRefs k (m.enqueue ⟨tid, .ex⟩) }

/-- `AsyncKeyedMutex.tryLock` (`AsyncKeyedMutex.ts` lines 11-16): on `null`
from the mutex, call `subRef()` and return `null`. -/
def ASMState.tryLock (s : ASMState K) (k : K) (tid : Nat) : ASMState K :=
  let m := (s.track k).1
  let s1 := (s.track k).2
  if m.canGrantEx then
    { s1 with mutexRefs := setMutexAt s1.mutexRefs k m.grantEx,
              running := s1.running ++ [(tid, k, .ex)] }
  else
    { s1 with mutexRefs := subRefMap s1.mutexRefs k,
              nullResults := s1.nullResults ++ [tid] }

/-- `AsyncKeyedMutex.lockShared` (`AsyncKeyedMutex.ts` lines 18-21). -/
def ASMState.lockShared (s : ASMState K) (k : K) (tid : Nat) : ASMState K :=
  let m := (s.track k).1
  let s1 := (s.track k).2
  if m.canGrantSh then
    { s1 with mutexRefs := setMutexAt s1.mutexRefs k m.grantSh,
              running := s1.running ++ [(tid, k, .sh)] }
  else
    { s1 with mutexRefs := setMutexAt s1.mutexRefs k (m.enqueue ⟨tid, .sh⟩) }

/-- `AsyncKeyedMutex.tryLockShared` (`AsyncKeyedMutex.ts` lines 23-28). -/
def ASMState.tryLockShared (s : ASMState K) (k : K) (tid : Nat) : ASMState K :=
  let m := (s.track k).1
  let s1 := (s.track k).2
  if m.canGrantSh then
    { s1 with mutexRefs := setMutexAt s1.mutexRefs k m.grantSh,
              running := s1.running ++ [(tid, k, .sh)] }
  else
    { s1 with mutexRefs := subRefMap s1.mutexRefs k,
              nullResults := s1.nullResults ++ [tid] }

/-- Completion of a running task: the `trackedTask`'s `finally` runs
`subRef` (`AsyncKeyedMutex.ts` lines 51-59), then the settled task lets the
`AsyncSharedMutex` release and promote queued tasks, which start running.
As in `KMState.unlockR`, when `subRef` has just evicted the entry its wait
queue is empty on every reachable state, so no promotion is skipped. -/
def ASMState.finish (s : ASMState K) (tid : Nat) : ASMState K :=
  match s.running.find? (fun r => r.1 == tid) with
  | none => s
  | some r =>
    let k := r.2.1
    let s1 := { s with running := s.running.eraseP (fun q => q.1 == tid) }
    let refs1 := subRefMap s1.mutexRefs k
    match mapGet refs1 k with
    | none => { s1 with mutexRefs := refs1 }
    | some (m, _) =>
      let mr := m.releaseKind r.2.2
      { s1 with mutexRefs := setMutexAt refs1 k mr.1,
                running := s1.running ++ mr.2.map (fun q => (q.rid, k, q.kind)) }

/-- One event applied to the standalone implementation. -/
def ASMState.step (s : ASMState K) : AsyncOp K → ASMState K
  | .lock k tid => s.lock k tid
  | .tryLock k tid => s.tryLock k tid
  | .lockShared k tid => s.lockShared k tid
  | .tryLockShared k tid => s.tryLockShared k tid
  | .finish tid => s.finish tid

/-- The standalone implementation's state after a sequence of events. -/
def ASMState.run (es : List (AsyncOp K)) : ASMState K :=
  es.foldl ASMState.step (ASMState.init K)

end AsyncStandalone

namespace AsyncWrapper

/-- State of the `KeyedMutex`-wrapping `AsyncKeyedMutex`
(`src/unnamed/part_001`): the inner `KeyedMutex` state, the association of
each pending `await keyedMutex.lock*` request to the task its continuation
will run, the running tasks (handle id, task id, key, kind), and the log of
task ids whose try-variant returned `null`. -/
structure WState (K : Type) where
  km : KMState K
  waiting : List (Nat × Nat)
  running : List (Nat × Nat × K × ReqKind)
  nullResults : List Nat
deriving DecidableEq, Repr

/-- A freshly constructed wrapper `AsyncKeyedMutex`. -/
def WState.init (K : Type) : WState K := ⟨KMState.init K, [], [], []⟩

variable {K : Type} [DecidableEq K]

/-- `AsyncKeyedMutex.lock` of the wrapper (`part_001` lines 12-15):
`await keyedMutex.lock(key)` then run the task under the handle — a
granted handle starts the task, a pending request records which task its
continuation will run. -/
def WState.lock (s : WState K) (k : K) (tid : Nat) : WState K :=
  let r := s.km.lock k
  match r.2 with
  | .granted hid => { s with km := r.1, running := s.running ++ [(hid, tid, k, .ex)] }
  | .pendingReq rid => { s with km := r.1, waiting := s.waiting ++ [(rid, tid)] }
  | .unavailable => { s with km := r.1 }

/-- `AsyncKeyedMutex.tryLock` of the wrapper (`part_001` lines 17-22). -/
def WState.tryLock (s : WState K) (k : K) (tid : Nat) : WState K :=
  let r := s.km.tryLock k
  match r.2 with
  | .granted hid => { s with km := r.1, running := s.running ++ [(hid, tid, k, .ex)] }
  | .unavailable => { s with km := r.1, nullResults := s.nullResults ++ [tid] }
  | .pendingReq _ => { s with km := r.1 }

/-- `AsyncKeyedMutex.lockShared` of the wrapper (`part_001` lines 24-27). -/
def WState.lockShared (s : WState K) (k : K) (tid : Nat) : WState K :=
  let r := s.km.lockShared k
  match r.2 with
  | .granted hid => { s with km := r.1, running := s.running ++ [(hid, tid, k, .sh)] }
  | .pendingReq rid => { s with km := r.1, waiting := s.waiting ++ [(rid, tid)] }
  | .unavailable => { s with km := r.1 }

/-- `AsyncKeyedMutex.tryLockShared` of the wrapper (`part_001` lines 29-34). -/
def WState.tryLockShared (s : WState K) (k : K) (tid : Nat) : WState K :=
  let r := s.km.tryLockShared k
  match r.2 with
  | .granted hid => { s with km := r.1, running := s.running ++ [(hid, tid, k, .sh)] }
  | .unavailable => { s with km := r.1, nullResults := s.nullResults ++ [tid] }
  | .pendingReq _ => { s with km := r.1 }

/-- Completion of a running task in the wrapper: `run`'s `finally` calls
`handle.unlock()` (`part_001` lines 36-43), which decrements the refCount
and promotes queued requests inside the `KeyedMutex`; each promoted
request's pending `await` resumes and starts the task recorded for it. -/
def WState.finish (s : WState K) (tid : Nat) : WState K :=
  match s.running.find? (fun r => r.2.1 == tid) with
  | none => s
  | some r =>
    let u := s.km.unlockR r.1
    { s with
      km := u.1,
      running := s.running.eraseP (fun q => q.2.1 == tid)
        ++ u.2.map (fun q => (q.rid, (mapGet s.waiting q.rid).getD 0, r.2.2.1, q.kind)),
      nullResults := s.nullResults }

/-- One event applied to the wrapper implementation. -/
def WState.step (s : WState K) : AsyncOp K → WState K
  | .lock k tid => s.lock k tid
  | .tryLock k tid => s.tryLock k tid
  | .lockShared k tid => s.lockShared k tid
  | .tryLockShared k tid => s.tryLockShared k tid
  | .finish tid => s.finish tid

/-- The wrapper implementation's state after a sequence of events. -/
def WState.run (es : List (AsyncOp K)) : WState K :=
  es.foldl WState.step (WState.init K)

/-- Replace a queued request id by the task id its continuation will run
(the wrapper queues anonymous request ids; the standalone queues task
ids). -/
def ridTid (w : List (Nat × Nat)) (r : WaitReq) : WaitReq :=
  ⟨(mapGet w r.rid).getD 0, r.kind⟩

/-- Project a wrapper per-key lock onto the standalone one: same holder,
queue entries renamed from request ids to task ids. -/
def projMutex (w : List (Nat × Nat)) (m : SharedMutex) : SharedMutex :=
  ⟨m.holder, m.waitQueue.map (ridTid w)⟩

/-- Project the wrapper's whole `mutexRefs` map. -/
def projRefs (w : List (Nat × Nat)) (refs : List (K × SharedMutex × Nat)) :
    List (K × SharedMutex × Nat) :=
  refs.map (fun e => (e.1, projMutex w e.2.1, e.2.2))

/-- Project a wrapper state onto a standalone state: drop the handle
indirection (handle ids, `unlocked` flags, grant log) and rename queued
request ids to task ids. -/
def projW (s : WState K) : AsyncStandalone.ASMState K :=
  ⟨projRefs s.waiting s.km.mutexRefs, s.running.map Prod.snd, s.nullResults⟩

/-- All request ids queued anywhere in a registry map. -/
def ridsOf (refs : List (K × SharedMutex × Nat)) : List Nat :=
  refs.flatMap (fun e => e.2.1.waitQueue.map WaitReq.rid)

/-- Ghost well-formedness of the wrapper state, holding in every state the
wrapper actually reaches: handle ids, queued request ids and recorded
pending-request ids are all below the allocation counter; handle ids and
queued request ids are globally distinct; every running task's handle id
locates its issued, not-yet-released handle with the matching key and kind;
and no two running tasks share a handle. -/
def WInv (s : WState K) : Prop :=
  (∀ h ∈ s.km.handles, h.hid < s.km.nextId) ∧
  (∀ i ∈ ridsOf s.km.mutexRefs, i < s.km.nextId) ∧
  (∀ p ∈ s.waiting, p.1 < s.km.nextId) ∧
  ((s.km.handles.map KHandle.hid) ++ ridsOf s.km.mutexRefs).Nodup ∧
  (∀ r ∈ s.running, s.km.handles.find? (fun g => g.hid == r.1)
      = some ⟨r.1, r.2.2.1, r.2.2.2, false⟩) ∧
  (s.running.map (fun r => r.1)).Nodup

end AsyncWrapper

/-! Association-list lemmas for the JS `Map` embedding. -/

section MapLemmas

variable {V : Type}

theorem mapGet_mem {l : List (K × V)} {k : K} {v : V} (h : mapGet l k = some v) :
    (k, v) ∈ l := by
  induction l with
  | nil => simp [mapGet] at h
  | cons e rest ih =>
    obtain ⟨k', v'⟩ := e
    by_cases hk : k = k'
    · simp only [mapGet, if_pos hk] at h
      cases h
      subst hk
      exact List.mem_cons_self _ _
    · simp only [mapGet, if_neg hk] at h
      exact List.mem_cons_of_mem _ (ih h)

theorem mem_mapSet {l : List (K × V)} {k : K} {v : V} {x : K × V}
    (h : x ∈ mapSet l k v) : x = (k, v) ∨ x ∈ l := by
  induction l with
  | nil => simpa [mapSet] using h
  | cons e rest ih =>
    obtain ⟨k', v'⟩ := e
    by_cases hk : k = k'
    · simp only [mapSet, if_pos hk, List.mem_cons] at h
      rcases h with h | h
      · exact Or.inl h
      · exact Or.inr (List.mem_cons_of_mem _ h)
    · simp only [mapSet, if_neg hk, List.mem_cons] at h
      rcases h with h | h
      · exact Or.inr (by simp [h])
      · rcases ih h with h' | h'
        · exact Or.inl h'
        · exact Or.inr (List.mem_cons_of_mem _ h')

theorem mapDelete_sublist (l : List (K × V)) (k : K) : (mapDelete l k).Sublist l := by
  induction l with
  | nil => simp [mapDelete]
  | cons e rest ih =>
    obtain ⟨k', v'⟩ := e
    by_cases hk : k = k'
    · simp only [mapDelete, if_pos hk]
      exact List.sublist_cons_self _ _
    · simp only [mapDelete, if_neg hk]
      exact ih.cons₂ _

theorem mem_mapDelete {l : List (K × V)} {k : K} {x : K × V}
    (h : x ∈ mapDelete l k) : x ∈ l :=
  (mapDelete_sublist l k).subset h

theorem mapGet_mapSet_self (l : List (K × V)) (k : K) (v : V) :
    mapGet (mapSet l k v) k = some v := by
  induction l with
  | nil => simp [mapSet, mapGet]
  | cons e rest ih =>
    obtain ⟨k', v'⟩ := e
    by_cases hk : k = k'
    · simp [mapSet, mapGet, hk]
    · simp [mapSet, mapGet, hk, ih]

theorem mapGet_mapSet_ne {l : List (K × V)} {k k' : K} (v : V) (h : k' ≠ k) :
    mapGet (mapSet l k v) k' = mapGet l k' := by
  induction l with
  | nil => simp [mapSet, mapGet, h]
  | cons e rest ih =>
    obtain ⟨k₀, v₀⟩ := e
    by_cases hk : k = k₀
    · subst hk
      simp [mapSet, mapGet, h, ih]
    · by_cases hk' : k' = k₀ <;> simp [mapSet, mapGet, hk, hk', ih]

theorem mapGet_mapDelete_ne {l : List (K × V)} {k k' : K} (h : k' ≠ k) :
    mapGet (mapDelete l k) k' = mapGet l k' := by
  induction l with
  | nil => simp [mapDelete]
  | cons e rest ih =>
    obtain ⟨k₀, v₀⟩ := e
    by_cases hk : k = k₀
    · subst hk
      simp [mapDelete, mapGet, h]
    · by_cases hk' : k' = k₀ <;> simp [mapDelete, mapGet, hk, hk', ih]

theorem mapGet_eq_none_of_not_mem {l : List (K × V)} {k : K}
    (h : k ∉ l.map Prod.fst) : mapGet l k = none := by
  induction l with
  | nil => simp [mapGet]
  | cons e rest ih =>
    obtain ⟨k', v'⟩ := e
    simp only [List.map_cons, List.mem_cons] at h
    push_neg at h
    simp [mapGet, h.1, ih h.2]

theorem not_mem_of_mapGet_eq_none {l : List (K × V)} {k : K}
    (h : mapGet l k = none) : k ∉ l.map Prod.fst := by
  induction l with
  | nil => simp
  | cons e rest ih =>
    obtain ⟨k', v'⟩ := e
    by_cases hk : k = k'
    · simp [mapGet, hk] at h
    · simp only [mapGet, if_neg hk] at h
      simp [hk, ih h]

theorem mapSet_of_get_none {l : List (K × V)} {k : K} (v : V)
    (h : mapGet l k = none) : mapSet l k v = l ++ [(k, v)] := by
  induction l with
  | nil => simp [mapSet]
  | cons e rest ih =>
    obtain ⟨k', v'⟩ := e
    by_cases hk : k = k'
    · simp [mapGet, hk] at h
    · simp only [mapGet, if_neg hk] at h
      simp [mapSet, hk, ih h]

theorem keys_mapSet_of_get_some {l : List (K × V)} {k : K} {v₀ : V} (v : V)
    (h : mapGet l k = some v₀) :
    (mapSet l k v).map Prod.fst = l.map Prod.fst := by
  induction l with
  | nil => simp [mapGet] at h
  | cons e rest ih =>
    obtain ⟨k', v'⟩ := e
    by_cases hk : k = k'
    · simp [mapSet, hk]
    · simp only [mapGet, if_neg hk] at h
      simp [mapSet, hk, ih h]

theorem nodup_keys_mapSet {l : List (K × V)} {k : K} (v : V)
    (h : (l.map Prod.fst).Nodup) : ((mapSet l k v).map Prod.fst).Nodup := by
  cases hget : mapGet l k with
  | none =>
    rw [mapSet_of_get_none v hget]
    simp only [List.map_append, List.map_cons, List.map_nil]
    rw [List.nodup_append]
    exact ⟨h, List.nodup_singleton _, by
      simpa using not_mem_of_mapGet_eq_none hget⟩
  | some v₀ => rwa [keys_mapSet_of_get_some v hget]

theorem nodup_keys_mapDelete {l : List (K × V)} (k : K)
    (h : (l.map Prod.fst).Nodup) : ((mapDelete l k).map Prod.fst).Nodup :=
  ((mapDelete_sublist l k).map Prod.fst).nodup h

theorem mapGet_mapDelete_self {l : List (K × V)} {k : K}
    (h : (l.map Prod.fst).Nodup) : mapGet (mapDelete l k) k = none := by
  induction l with
  | nil => simp [mapDelete, mapGet]
  | cons e rest ih =>
    obtain ⟨k', v'⟩ := e
    simp only [List.map_cons, List.nodup_cons] at h
    by_cases hk : k = k'
    · subst hk
      simp only [mapDelete, if_pos rfl]
      exact mapGet_eq_none_of_not_mem h.1
    · simp [mapDelete, mapGet, hk, ih h.2]

theorem mapSet_self {l : List (K × V)} {k : K} {v : V}
    (h : mapGet l k = some v) : mapSet l k v = l := by
  induction l with
  | nil => simp [mapGet] at h
  | cons e rest ih =>
    obtain ⟨k', v'⟩ := e
    by_cases hk : k = k'
    · simp only [mapGet, if_pos hk] at h
      cases h
      simp [mapSet, hk]
    · simp only [mapGet, if_neg hk] at h
      simp [mapSet, hk, ih h]

theorem mapSet_mapSet (l : List (K × V)) (k : K) (v w : V) :
    mapSet (mapSet l k v) k w = mapSet l k w := by
  induction l with
  | nil => simp [mapSet]
  | cons e rest ih =>
    obtain ⟨k', v'⟩ := e
    by_cases hk : k = k' <;> simp [mapSet, hk, ih]

theorem mapDelete_append_of_get_none {l : List (K × V)} {k : K} (v : V)
    (h : mapGet l k = none) : mapDelete (l ++ [(k, v)]) k = l := by
  induction l with
  | nil => simp [mapDelete]
  | cons e rest ih =>
    obtain ⟨k', v'⟩ := e
    by_cases hk : k = k'
    · simp [mapGet, hk] at h
    · simp only [mapGet, if_neg hk] at h
      simp [mapDelete, hk, ih h]

theorem mapGet_append_of_some {l l' : List (K × V)} {k : K} {v : V}
    (h : mapGet l k = some v) : mapGet (l ++ l') k = some v := by
  induction l with
  | nil => simp [mapGet] at h
  | cons e rest ih =>
    obtain ⟨k', v'⟩ := e
    by_cases hk : k = k'
    · simp only [mapGet, if_pos hk] at h
      simp [mapGet, hk, h]
    · simp only [mapGet, if_neg hk] at h
      simp [mapGet, hk, ih h]

theorem mapGet_append_of_none {l l' : List (K × V)} {k : K}
    (h : mapGet l k = none) : mapGet (l ++ l') k = mapGet l' k := by
  induction l with
  | nil => simp
  | cons e rest ih =>
    obtain ⟨k', v'⟩ := e
    by_cases hk : k = k'
    · simp [mapGet, hk] at h
    · simp only [mapGet, if_neg hk] at h
      simp [mapGet, hk, ih h]

theorem mapGet_append_single_ne {l : List (K × V)} {k : K} (p : K × V)
    (h : k ≠ p.1) : mapGet (l ++ [p]) k = mapGet l k := by
  cases hget : mapGet l k with
  | none =>
    rw [mapGet_append_of_none hget]
    obtain ⟨k', v'⟩ := p
    simp only [mapGet]
    rw [if_neg (by simpa using h)]
  | some v => exact mapGet_append_of_some hget

theorem get_decomp {l : List (K × V)} {k : K} {v : V}
    (h : mapGet l k = some v) :
    ∃ l1 l2, l = l1 ++ (k, v) :: l2 ∧ mapGet l1 k = none ∧
      (∀ w, mapSet l k w = l1 ++ (k, w) :: l2) ∧ mapDelete l k = l1 ++ l2 := by
  induction l with
  | nil => simp [mapGet] at h
  | cons e rest ih =>
    obtain ⟨k', v'⟩ := e
    by_cases hk : k = k'
    · subst hk
      simp only [mapGet, if_pos rfl] at h
      cases h
      exact ⟨[], rest, rfl, rfl, fun w => by simp [mapSet], by simp [mapDelete]⟩
    · simp only [mapGet, if_neg hk] at h
      obtain ⟨l1, l2, heq, hnone, hset, hdel⟩ := ih h
      refine ⟨(k', v') :: l1, l2, by simp [heq], ?_, ?_, ?_⟩
      · simp [mapGet, hk, hnone]
      · intro w
        simp [mapSet, hk, hset w]
      · simp [mapDelete, hk, hdel]

end MapLemmas

/-! Preservation of the registry well-formedness through every operation. -/

section WFLemmas

theorem refsWF_mapSet {refs : List (K × SharedMutex × Nat)} {k : K}
    {m : SharedMutex} {rc : Nat} (h : refsWF refs) (hrc : 0 < rc) :
    refsWF (mapSet refs k (m, rc)) := by
  refine ⟨nodup_keys_mapSet _ h.1, ?_⟩
  intro e he
  rcases mem_mapSet he with rfl | he'
  · simpa using hrc
  · exact h.2 _ he'

theorem refsWF_mapDelete {refs : List (K × SharedMutex × Nat)} (k : K)
    (h : refsWF refs) : refsWF (mapDelete refs k) :=
  ⟨nodup_keys_mapDelete _ h.1, fun _ he => h.2 _ (mem_mapDelete he)⟩

theorem refsWF_subRefMap {refs : List (K × SharedMutex × Nat)} (k : K)
    (h : refsWF refs) : refsWF (subRefMap refs k) := by
  rw [subRefMap]
  split
  · exact h
  · next m rc hget =>
    split
    · exact refsWF_mapDelete k h
    · next h1 =>
      have hrcpos : 0 < rc := h.2 _ (mapGet_mem hget)
      exact refsWF_mapSet h (by omega)

theorem refsWF_setMutexAt {refs : List (K × SharedMutex × Nat)} (k : K)
    (m : SharedMutex) (h : refsWF refs) : refsWF (setMutexAt refs k m) := by
  rw [setMutexAt]
  split
  · exact h
  · next m0 rc hget => exact refsWF_mapSet h (h.2 _ (mapGet_mem hget))

theorem refsWF_track (s : KMState K) (k : K) (h : refsWF s.mutexRefs) :
    refsWF (s.track k).2.mutexRefs := by
  simp only [KMState.track]
  exact refsWF_mapSet h (Nat.succ_pos _)

theorem refsWF_step (s : KMState K) (op : Op K) (h : refsWF s.mutexRefs) :
    refsWF ((s.step op).mutexRefs) := by
  cases op with
  | lock k =>
    simp only [KMState.step, KMState.lock]
    split
    · exact refsWF_setMutexAt _ _ (refsWF_track s k h)
    · exact refsWF_setMutexAt _ _ (refsWF_track s k h)
  | tryLock k =>
    simp only [KMState.step, KMState.tryLock]
    split
    · exact refsWF_setMutexAt _ _ (refsWF_track s k h)
    · exact refsWF_subRefMap _ (refsWF_track s k h)
  | lockShared k =>
    simp only [KMState.step, KMState.lockShared]
    split
    · exact refsWF_setMutexAt _ _ (refsWF_track s k h)
    · exact refsWF_setMutexAt _ _ (refsWF_track s k h)
  | tryLockShared k =>
    simp only [KMState.step, KMState.tryLockShared]
    split
    · exact refsWF_setMutexAt _ _ (refsWF_track s k h)
    · exact refsWF_subRefMap _ (refsWF_track s k h)
  | unlock hid =>
    simp only [KMState.step, KMState.unlock, KMState.unlockR]
    split
    · exact h
    · next hh hfind =>
      split
      · exact h
      · split
        · exact refsWF_subRefMap _ h
        · simp only [KMState.issue]
          exact refsWF_setMutexAt _ _ (refsWF_subRefMap _ h)

theorem refsWF_foldl_step (ops : List (Op K)) (s : KMState K)
    (h : refsWF s.mutexRefs) : refsWF ((ops.foldl KMState.step s).mutexRefs) := by
  induction ops generalizing s with
  | nil => exact h
  | cons op rest ih => exact ih _ (refsWF_step s op h)

theorem refsWF_run (ops : List (Op K)) : refsWF (KMState.run ops).mutexRefs := by
  rw [KMState.run]
  exact refsWF_foldl_step ops _ (by constructor <;> simp [KMState.init])

end WFLemmas

/-! Lemmas about handle release. -/

section UnlockLemmas

theorem find?_mark {l : List (KHandle K)} {hid : Nat} {h : KHandle K}
    (hfind : l.find? (fun g => g.hid == hid) = some h) :
    (l.map (fun (g : KHandle K) =>
        if g.hid = hid then { g with unlocked := true } else g)).find?
      (fun g => g.hid == hid) = some { h with unlocked := true } := by
  induction l with
  | nil => simp at hfind
  | cons a rest ih =>
    by_cases ha : a.hid = hid
    · rw [List.find?_cons_of_pos _ (by simp [ha])] at hfind
      cases hfind
      rw [List.map_cons, if_pos ha, List.find?_cons_of_pos _ (by simp [ha])]
    · rw [List.find?_cons_of_neg _ (by simp [ha])] at hfind
      rw [List.map_cons, if_neg ha, List.find?_cons_of_neg _ (by simp [ha])]
      exact ih hfind

theorem unlock_of_find?_none {s : KMState K} {hid : Nat}
    (hfind : s.handles.find? (fun g => g.hid == hid) = none) :
    s.unlock hid = s := by
  rw [KMState.unlock, KMState.unlockR, hfind]

theorem unlock_of_unlocked {s : KMState K} {hid : Nat} {h : KHandle K}
    (hfind : s.handles.find? (fun g => g.hid == hid) = some h)
    (hu : h.unlocked = true) :
    s.unlock hid = s := by
  rw [KMState.unlock, KMState.unlockR, hfind]
  simp [hu]

theorem unlock_find?_mark {s : KMState K} {hid : Nat} {h : KHandle K}
    (hfind : s.handles.find? (fun g => g.hid == hid) = some h)
    (hu : h.unlocked = false) :
    (s.unlock hid).handles.find? (fun g => g.hid == hid)
      = some { h with unlocked := true } := by
  rw [KMState.unlock, KMState.unlockR, hfind]
  simp only [hu, Bool.false_eq_true, if_false]
  split
  · exact find?_mark hfind
  · simp only [KMState.issue]
    rw [List.find?_append, find?_mark hfind]
    rfl

theorem unlock_unlock (s : KMState K) (hid : Nat) :
    (s.unlock hid).unlock hid = s.unlock hid := by
  rcases hfind : s.handles.find? (fun g => g.hid == hid) with _ | h
  · rw [unlock_of_find?_none hfind, unlock_of_find?_none hfind]
  · by_cases hu : h.unlocked
    · rw [unlock_of_unlocked hfind hu, unlock_of_unlocked hfind hu]
    · exact unlock_of_unlocked (unlock_find?_mark hfind (by simpa using hu)) rfl

end UnlockLemmas

/-! Characterizations of `track`, `subRef` and the try-variant failure path. -/

section OpLemmas

theorem track_of_get_some {s : KMState K} {k : K} {m : SharedMutex} {rc : Nat}
    (hget : mapGet s.mutexRefs k = some (m, rc)) :
    s.track k = (m, { s with mutexRefs := mapSet s.mutexRefs k (m, rc + 1) }) := by
  rw [KMState.track, hget]

theorem track_of_get_none {s : KMState K} {k : K}
    (hget : mapGet s.mutexRefs k = none) :
    s.track k
      = (SharedMutex.new,
         { s with mutexRefs := mapSet s.mutexRefs k (SharedMutex.new, 1) }) := by
  rw [KMState.track, hget]

theorem subRefMap_of_get_one {refs : List (K × SharedMutex × Nat)} {k : K}
    {m : SharedMutex} (hget : mapGet refs k = some (m, 1)) :
    subRefMap refs k = mapDelete refs k := by
  rw [subRefMap, hget]
  simp

theorem subRefMap_of_get_ne_one {refs : List (K × SharedMutex × Nat)} {k : K}
    {m : SharedMutex} {rc : Nat} (hget : mapGet refs k = some (m, rc))
    (h1 : rc ≠ 1) : subRefMap refs k = mapSet refs k (m, rc - 1) := by
  rw [subRefMap, hget]
  simp [h1]

theorem mapGet_setMutexAt_self {refs : List (K × SharedMutex × Nat)} {k : K}
    {m' m : SharedMutex} {rc : Nat} (hget : mapGet refs k = some (m, rc)) :
    mapGet (setMutexAt refs k m') k = some (m', rc) := by
  rw [setMutexAt, hget]
  exact mapGet_mapSet_self _ _ _

theorem canGrantEx_new : SharedMutex.new.canGrantEx = true := rfl

theorem canGrantSh_new : SharedMutex.new.canGrantSh = true := rfl

theorem tryLock_fail_eq {s : KMState K} {k : K} (hwf : refsWF s.mutexRefs)
    (hfail : (s.tryLock k).2 = .unavailable) : (s.tryLock k).1 = s := by
  rcases hget : mapGet s.mutexRefs k with _ | ⟨m, rc⟩
  · exfalso
    simp only [KMState.tryLock, track_of_get_none hget, canGrantEx_new, if_true] at hfail
    exact absurd hfail (by simp)
  · have hrc : 0 < rc := by
      have := hwf.2 _ (mapGet_mem hget)
      simpa using this
    by_cases hcan : m.canGrantEx
    · exfalso
      simp only [KMState.tryLock, track_of_get_some hget, hcan, if_true] at hfail
      exact absurd hfail (by simp)
    · simp only [KMState.tryLock, track_of_get_some hget, hcan, Bool.false_eq_true,
        if_false]
      have h1 : mapGet (mapSet s.mutexRefs k (m, rc + 1)) k = some (m, rc + 1) :=
        mapGet_mapSet_self _ _ _
      rw [subRefMap_of_get_ne_one h1 (by omega)]
      simp only [Nat.add_sub_cancel, mapSet_mapSet, mapSet_self hget]

theorem tryLockShared_fail_eq {s : KMState K} {k : K} (hwf : refsWF s.mutexRefs)
    (hfail : (s.tryLockShared k).2 = .unavailable) : (s.tryLockShared k).1 = s := by
  rcases hget : mapGet s.mutexRefs k with _ | ⟨m, rc⟩
  · exfalso
    simp only [KMState.tryLockShared, track_of_get_none hget, canGrantSh_new,
      if_true] at hfail
    exact absurd hfail (by simp)
  · have hrc : 0 < rc := by
      have := hwf.2 _ (mapGet_mem hget)
      simpa using this
    by_cases hcan : m.canGrantSh
    · exfalso
      simp only [KMState.tryLockShared, track_of_get_some hget, hcan, if_true] at hfail
      exact absurd hfail (by simp)
    · simp only [KMState.tryLockShared, track_of_get_some hget, hcan, Bool.false_eq_true,
        if_false]
      have h1 : mapGet (mapSet s.mutexRefs k (m, rc + 1)) k = some (m, rc + 1) :=
        mapGet_mapSet_self _ _ _
      rw [subRefMap_of_get_ne_one h1 (by omega)]
      simp only [Nat.add_sub_cancel, mapSet_mapSet, mapSet_self hget]

theorem unlock_refCountAt {s : KMState K} {hid : Nat} {h : KHandle K}
    (hwf : refsWF s.mutexRefs)
    (hfind : s.handles.find? (fun g => g.hid == hid) = some h)
    (hu : h.unlocked = false) {m : SharedMutex} {rc : Nat}
    (hget : mapGet s.mutexRefs h.key = some (m, rc)) :
    (s.unlock hid).refCountAt h.key = if rc = 1 then none else some (rc - 1) := by
  rw [KMState.unlock, KMState.unlockR, hfind]
  simp only [hu, Bool.false_eq_true, if_false]
  by_cases h1 : rc = 1
  · subst h1
    have hnone : mapGet (subRefMap s.mutexRefs h.key) h.key = none := by
      rw [subRefMap_of_get_one hget]
      exact mapGet_mapDelete_self hwf.1
    simp [hnone, KMState.refCountAt]
  · have hsome : mapGet (subRefMap s.mutexRefs h.key) h.key = some (m, rc - 1) := by
      rw [subRefMap_of_get_ne_one hget h1]
      exact mapGet_mapSet_self _ _ _
    simp only [hsome, KMState.issue, KMState.refCountAt, if_neg h1]
    rw [mapGet_setMutexAt_self hsome]
    rfl

end OpLemmas

/-! Frame lemmas: operations on one key leave other keys' entries alone,
and their outcome is a function of that key's entry only. -/

section FrameLemmas

theorem mapGet_setMutexAt_ne {refs : List (K × SharedMutex × Nat)} {k k2 : K}
    (m : SharedMutex) (hne : k2 ≠ k) :
    mapGet (setMutexAt refs k m) k2 = mapGet refs k2 := by
  rw [setMutexAt]
  split
  · rfl
  · exact mapGet_mapSet_ne _ hne

theorem mapGet_subRefMap_ne {refs : List (K × SharedMutex × Nat)} {k k2 : K}
    (hne : k2 ≠ k) : mapGet (subRefMap refs k) k2 = mapGet refs k2 := by
  rw [subRefMap]
  split
  · rfl
  · split
    · exact mapGet_mapDelete_ne hne
    · exact mapGet_mapSet_ne _ hne

theorem mapGet_track_ne {s : KMState K} {k k2 : K} (hne : k2 ≠ k) :
    mapGet (s.track k).2.mutexRefs k2 = mapGet s.mutexRefs k2 := by
  simp only [KMState.track]
  exact mapGet_mapSet_ne _ hne

theorem track_fst (s : KMState K) (k : K) :
    (s.track k).1 = ((mapGet s.mutexRefs k).getD (SharedMutex.new, 0)).1 := by
  rw [KMState.track]
  cases mapGet s.mutexRefs k <;> rfl

theorem lock_isGranted (s : KMState K) (k : K) :
    (s.lock k).2.isGranted = ((s.track k).1).canGrantEx := by
  simp only [KMState.lock]
  split
  · next hc => simp [AcqResult.isGranted, hc]
  · next hc => simp [AcqResult.isGranted, Bool.of_not_eq_true hc]

theorem tryLock_isGranted (s : KMState K) (k : K) :
    (s.tryLock k).2.isGranted = ((s.track k).1).canGrantEx := by
  simp only [KMState.tryLock]
  split
  · next hc => simp [AcqResult.isGranted, hc]
  · next hc => simp [AcqResult.isGranted, Bool.of_not_eq_true hc]

theorem lockShared_isGranted (s : KMState K) (k : K) :
    (s.lockShared k).2.isGranted = ((s.track k).1).canGrantSh := by
  simp only [KMState.lockShared]
  split
  · next hc => simp [AcqResult.isGranted, hc]
  · next hc => simp [AcqResult.isGranted, Bool.of_not_eq_true hc]

theorem tryLockShared_isGranted (s : KMState K) (k : K) :
    (s.tryLockShared k).2.isGranted = ((s.track k).1).canGrantSh := by
  simp only [KMState.tryLockShared]
  split
  · next hc => simp [AcqResult.isGranted, hc]
  · next hc => simp [AcqResult.isGranted, Bool.of_not_eq_true hc]

end FrameLemmas

/-! Claim theorems. -/

/-- C1: for every reachable registry state, every entry present in the
key-to-entry map has a strictly positive refCount (so `refCount == 0` iff
the key is absent), and the decrement path never evicts an entry whose
refCount is still greater than 0: when it is at least 2 the entry stays,
merely decremented. -/
theorem c1_refcount_positive_iff_present :
    (∀ (ops : List (Op Nat)) (k : Nat) (m : SharedMutex) (rc : Nat),
        mapGet (KMState.run ops).mutexRefs k = some (m, rc) → 0 < rc) ∧
    (∀ (refs : List (Nat × SharedMutex × Nat)) (k : Nat) (m : SharedMutex) (rc : Nat),
        mapGet refs k = some (m, rc) → 1 < rc →
        mapGet (subRefMap refs k) k = some (m, rc - 1)) := by
  constructor
  · intro ops k m rc hget
    have := (refsWF_run ops).2 _ (mapGet_mem hget)
    simpa using this
  · intro refs k m rc hget h1
    rw [subRefMap_of_get_ne_one hget (by omega)]
    exact mapGet_mapSet_self _ _ _

/-- Witness for C1 at concrete inputs. -/
theorem c1_witness :
    (0 : Nat) < 1 ∧
    mapGet (subRefMap [(0, SharedMutex.new, 2)] 0) 0 = some (SharedMutex.new, 1) :=
  ⟨c1_refcount_positive_iff_present.1 [Op.lock 0] 0 ⟨.exclusiveHeld, []⟩ 1 (by decide),
   c1_refcount_positive_iff_present.2 [(0, SharedMutex.new, 2)] 0 SharedMutex.new 2
     (by decide) (by decide)⟩

/-- C2: the refCount decrement runs exactly once per started request. The
decrement step maps a present refCount `rc` to `rc - 1`, removing the entry
synchronously within the same step when `rc = 1` (no observable
"present with refCount 0" state); a failed try-variant performs its
decrement before returning, leaving the key's refCount as it was; a granted
handle's first release performs the decrement and a second release does not
change the refCount again. -/
theorem c2_decrement_exactly_once :
    (∀ (refs : List (Nat × SharedMutex × Nat)) (k : Nat) (m : SharedMutex) (rc : Nat),
        refsWF refs → mapGet refs k = some (m, rc) →
        mapGet (subRefMap refs k) k = (if rc = 1 then none else some (m, rc - 1))) ∧
    (∀ (s : KMState Nat) (k : Nat), refsWF s.mutexRefs →
        (s.tryLock k).2 = .unavailable →
        (s.tryLock k).1.refCountAt k = s.refCountAt k) ∧
    (∀ (s : KMState Nat) (hid : Nat) (h : KHandle Nat) (m : SharedMutex) (rc : Nat),
        refsWF s.mutexRefs →
        s.handles.find? (fun g => g.hid == hid) = some h →
        h.unlocked = false →
        mapGet s.mutexRefs h.key = some (m, rc) →
        (s.unlock hid).refCountAt h.key = (if rc = 1 then none else some (rc - 1)) ∧
        ((s.unlock hid).unlock hid).refCountAt h.key
          = (s.unlock hid).refCountAt h.key) := by
  refine ⟨?_, ?_, ?_⟩
  · intro refs k m rc hwf hget
    by_cases h1 : rc = 1
    · subst h1
      rw [subRefMap_of_get_one hget, if_pos rfl]
      exact mapGet_mapDelete_self hwf.1
    · rw [subRefMap_of_get_ne_one hget h1, if_neg h1]
      exact mapGet_mapSet_self _ _ _
  · intro s k hwf hfail
    rw [tryLock_fail_eq hwf hfail]
  · intro s hid h m rc hwf hfind hu hget
    exact ⟨unlock_refCountAt hwf hfind hu hget, by rw [unlock_unlock]⟩

/-- Witness for C2 at concrete inputs. -/
theorem c2_witness :
    mapGet (subRefMap [((0 : Nat), SharedMutex.new, 1)] 0) 0
        = (if 1 = 1 then none else some (SharedMutex.new, 0)) ∧
    ((((KMState.init Nat).lock 0).1.tryLock 0).1.refCountAt 0
        = ((KMState.init Nat).lock 0).1.refCountAt 0) ∧
    ((((KMState.init Nat).lock 0).1.unlock 0).refCountAt 0
        = (if 1 = 1 then none else some 0)) := by
  refine ⟨?_, ?_, ?_⟩
  · exact c2_decrement_exactly_once.1 [(0, SharedMutex.new, 1)] 0 SharedMutex.new 1
      (by decide) (by decide)
  · exact c2_decrement_exactly_once.2.1 ((KMState.init Nat).lock 0).1 0
      (by decide) (by decide)
  · exact (c2_decrement_exactly_once.2.2 ((KMState.init Nat).lock 0).1 0
      ⟨0, 0, .ex, false⟩ ⟨.exclusiveHeld, []⟩ 1 (by decide) (by decide) rfl
      (by decide)).1

/-- C4: release is idempotent — releasing the same handle a second (or any
further) time is a no-op: the state after two releases equals the state
after one, so the refCount is decremented only once, the underlying lock
released only once, and no second waiter promotion occurs. -/
theorem c4_release_idempotent (s : KMState Nat) (hid : Nat) :
    (s.unlock hid).unlock hid = s.unlock hid :=
  unlock_unlock s hid

/-- C5: a failed try-variant returns the non-exceptional `null` sentinel,
never queues a waiter, and leaves the whole registry state exactly as it
was before the call (including removing the entry it transiently created
for a previously absent key). -/
theorem c5_try_failure_leaves_state (s : KMState Nat) (k : Nat)
    (hwf : refsWF s.mutexRefs) :
    ((s.tryLock k).2 = .unavailable → (s.tryLock k).1 = s) ∧
    ((s.tryLockShared k).2 = .unavailable → (s.tryLockShared k).1 = s) ∧
    (∀ rid, (s.tryLock k).2 ≠ .pendingReq rid ∧
      (s.tryLockShared k).2 ≠ .pendingReq rid) := by
  refine ⟨tryLock_fail_eq hwf, tryLockShared_fail_eq hwf, ?_⟩
  intro rid
  constructor
  · simp only [KMState.tryLock]
    split <;> simp
  · simp only [KMState.tryLockShared]
    split <;> simp

/-- Witness for C5: with key 0 exclusively held, both try-variants fail and
restore the state exactly. -/
theorem c5_witness :
    ((((KMState.init Nat).lock 0).1.tryLock 0).2 = .unavailable →
      (((KMState.init Nat).lock 0).1.tryLock 0).1 = ((KMState.init Nat).lock 0).1) ∧
    ((((KMState.init Nat).lock 0).1.tryLockShared 0).2 = .unavailable →
      (((KMState.init Nat).lock 0).1.tryLockShared 0).1
        = ((KMState.init Nat).lock 0).1) :=
  ⟨(c5_try_failure_leaves_state ((KMState.init Nat).lock 0).1 0 (by decide)).1,
   (c5_try_failure_leaves_state ((KMState.init Nat).lock 0).1 0 (by decide)).2.1⟩

/-- C6: with S1 a granted shared holder (request id 0), a later exclusive E
(request id 1) queues, and a still later shared S2 (request id 2) must also
queue behind E even though E has not started; the grant order is S1, then —
only after S1's release — E, then — only after E's release — S2. -/
theorem c6_late_shared_waits_for_queued_exclusive :
    ((((KMState.init Nat).lockShared 0).1.lock 0).2 = .pendingReq 1) ∧
    (((((KMState.init Nat).lockShared 0).1.lock 0).1.lockShared 0).2
        = .pendingReq 2) ∧
    (KMState.run [Op.lockShared 0, Op.lock 0, Op.lockShared 0]).grants = [0] ∧
    (KMState.run [Op.lockShared 0, Op.lock 0, Op.lockShared 0,
        Op.unlock 0]).grants = [0, 1] ∧
    (KMState.run [Op.lockShared 0, Op.lock 0, Op.lockShared 0, Op.unlock 0,
        Op.unlock 1]).grants = [0, 1, 2] := by
  decide

/-- C8: the first request for a key constructs a fresh Idle per-key lock and
an entry whose refCount, starting from 0, is already incremented to 1 by
that same call; every request on an existing entry increments its refCount
by 1 before delegating to the lock; and a request that then has to wait
(exclusive request on a non-grantable lock) has already incremented the
refCount even though no handle was produced. -/
theorem c8_track_creates_then_increments (s : KMState Nat) (k : Nat) :
    (mapGet s.mutexRefs k = none →
       (s.track k).1 = SharedMutex.new ∧
       mapGet (s.track k).2.mutexRefs k = some (SharedMutex.new, 1)) ∧
    (∀ m rc, mapGet s.mutexRefs k = some (m, rc) →
       (s.track k).1 = m ∧
       mapGet (s.track k).2.mutexRefs k = some (m, rc + 1)) ∧
    (∀ m rc, mapGet s.mutexRefs k = some (m, rc) → m.canGrantEx = false →
       (s.lock k).2 = .pendingReq s.nextId ∧
       (s.lock k).1.refCountAt k = some (rc + 1)) := by
  refine ⟨?_, ?_, ?_⟩
  · intro hget
    rw [track_of_get_none hget]
    exact ⟨rfl, mapGet_mapSet_self _ _ _⟩
  · intro m rc hget
    rw [track_of_get_some hget]
    exact ⟨rfl, mapGet_mapSet_self _ _ _⟩
  · intro m rc hget hcan
    have h1 : mapGet (mapSet s.mutexRefs k (m, rc + 1)) k = some (m, rc + 1) :=
      mapGet_mapSet_self _ _ _
    constructor
    · simp only [KMState.lock, track_of_get_some hget, hcan, Bool.false_eq_true,
        if_false]
    · simp only [KMState.lock, track_of_get_some hget, hcan, Bool.false_eq_true,
        if_false, KMState.refCountAt]
      rw [mapGet_setMutexAt_self h1]
      rfl

/-- Witness for C8: a fresh key at the initial state, and a queued second
exclusive request on a held key. -/
theorem c8_witness :
    (((KMState.init Nat).track 0).1 = SharedMutex.new ∧
      mapGet ((KMState.init Nat).track 0).2.mutexRefs 0
        = some (SharedMutex.new, 1)) ∧
    ((((KMState.init Nat).lock 0).1.lock 0).2 = .pendingReq 1 ∧
      (((KMState.init Nat).lock 0).1.lock 0).1.refCountAt 0 = some 2) :=
  ⟨(c8_track_creates_then_increments (KMState.init Nat) 0).1 (by decide),
   (c8_track_creates_then_increments ((KMState.init Nat).lock 0).1 0).2.2
     ⟨.exclusiveHeld, []⟩ 1 (by decide) (by decide)⟩

/-- C9: operations keyed to `k1` leave the entry of any other key `k2`
untouched (its lock and refCount), and whether an acquisition on `k1` is
granted is a function of `k1`'s entry alone — two registries agreeing at
`k1` decide the request identically, so an operation never waits on
another key's lock state. -/
theorem c9_distinct_keys_independent (s t : KMState Nat) (k1 k2 : Nat)
    (hne : k2 ≠ k1) :
    (mapGet (s.lock k1).1.mutexRefs k2 = mapGet s.mutexRefs k2) ∧
    (mapGet (s.tryLock k1).1.mutexRefs k2 = mapGet s.mutexRefs k2) ∧
    (mapGet (s.lockShared k1).1.mutexRefs k2 = mapGet s.mutexRefs k2) ∧
    (mapGet (s.tryLockShared k1).1.mutexRefs k2 = mapGet s.mutexRefs k2) ∧
    (∀ hid h, s.handles.find? (fun g => g.hid == hid) = some h → h.key = k1 →
        mapGet (s.unlock hid).mutexRefs k2 = mapGet s.mutexRefs k2) ∧
    (mapGet s.mutexRefs k1 = mapGet t.mutexRefs k1 →
        (s.lock k1).2.isGranted = (t.lock k1).2.isGranted ∧
        (s.tryLock k1).2.isGranted = (t.tryLock k1).2.isGranted ∧
        (s.lockShared k1).2.isGranted = (t.lockShared k1).2.isGranted ∧
        (s.tryLockShared k1).2.isGranted = (t.tryLockShared k1).2.isGranted) := by
  refine ⟨?_, ?_, ?_, ?_, ?_, ?_⟩
  · simp only [KMState.lock]
    split <;> simp only [KMState.issue] <;>
      rw [mapGet_setMutexAt_ne _ hne, mapGet_track_ne hne]
  · simp only [KMState.tryLock]
    split
    · simp only [KMState.issue]
      rw [mapGet_setMutexAt_ne _ hne, mapGet_track_ne hne]
    · show mapGet (subRefMap (s.track k1).2.mutexRefs k1) k2 = _
      rw [mapGet_subRefMap_ne hne, mapGet_track_ne hne]
  · simp only [KMState.lockShared]
    split <;> simp only [KMState.issue] <;>
      rw [mapGet_setMutexAt_ne _ hne, mapGet_track_ne hne]
  · simp only [KMState.tryLockShared]
    split
    · simp only [KMState.issue]
      rw [mapGet_setMutexAt_ne _ hne, mapGet_track_ne hne]
    · show mapGet (subRefMap (s.track k1).2.mutexRefs k1) k2 = _
      rw [mapGet_subRefMap_ne hne, mapGet_track_ne hne]
  · intro hid h hfind hkey
    subst hkey
    rw [KMState.unlock, KMState.unlockR, hfind]
    by_cases hu : h.unlocked
    · simp [hu]
    · simp only [hu, Bool.false_eq_true, if_false]
      split
      · exact mapGet_subRefMap_ne hne
      · exact (mapGet_setMutexAt_ne _ hne).trans (mapGet_subRefMap_ne hne)
  · intro heq
    refine ⟨?_, ?_, ?_, ?_⟩
    · rw [lock_isGranted, lock_isGranted, track_fst, track_fst, heq]
    · rw [tryLock_isGranted, tryLock_isGranted, track_fst, track_fst, heq]
    · rw [lockShared_isGranted, lockShared_isGranted, track_fst, track_fst, heq]
    · rw [tryLockShared_isGranted, tryLockShared_isGranted, track_fst, track_fst,
        heq]

/-- C7: in the scoped-acquisition convenience, a task fault propagates to the
caller completely unchanged (not wrapped, suppressed or translated), and by
the time the outcome reaches the caller the handle release has already been
applied — in particular the key's refCount has been decremented (entry
removed when it was 1). -/
theorem c7_fault_released_then_propagated {E T : Type} (s : KMState Nat)
    (hid : Nat) (t : TaskOutcome E T) :
    (AsyncWrapper.run s hid t).2 = t ∧
    (AsyncWrapper.run s hid t).1 = s.unlock hid ∧
    (∀ h m rc, refsWF s.mutexRefs →
        s.handles.find? (fun g => g.hid == hid) = some h →
        h.unlocked = false →
        mapGet s.mutexRefs h.key = some (m, rc) →
        (AsyncWrapper.run s hid t).1.refCountAt h.key
          = (if rc = 1 then none else some (rc - 1))) := by
  have hrun : (AsyncWrapper.run s hid t).1 = s.unlock hid := by
    cases t <;> rfl
  refine ⟨by cases t <;> rfl, hrun, ?_⟩
  intro h m rc hwf hfind hu hget
  rw [hrun]
  exact unlock_refCountAt hwf hfind hu hget

/-- Witness for C7: a rejecting task under an exclusive handle for key 0. -/
theorem c7_witness :
    (AsyncWrapper.run ((KMState.init Nat).lock 0).1 0
        (Except.error 7 : TaskOutcome Nat Nat)).2 = Except.error 7 ∧
    (AsyncWrapper.run ((KMState.init Nat).lock 0).1 0
        (Except.error 7 : TaskOutcome Nat Nat)).1.refCountAt 0
      = (if 1 = 1 then none else some 0) := by
  have h := c7_fault_released_then_propagated ((KMState.init Nat).lock 0).1 0
    (Except.error 7 : TaskOutcome Nat Nat)
  exact ⟨h.1, h.2.2 ⟨0, 0, .ex, false⟩ ⟨.exclusiveHeld, []⟩ 1 (by decide)
    (by decide) rfl (by decide)⟩

/-- Witness for C9 at concrete distinct keys, with a handle for key 1 held. -/
theorem c9_witness :
    (mapGet (((KMState.init Nat).lock 1).1.lock 1).1.mutexRefs 0
        = mapGet ((KMState.init Nat).lock 1).1.mutexRefs 0) ∧
    ((((KMState.init Nat).lock 1).1.lock 1).2.isGranted
        = (((KMState.init Nat).lock 1).1.lock 1).2.isGranted) := by
  have h := c9_distinct_keys_independent ((KMState.init Nat).lock 1).1
    ((KMState.init Nat).lock 1).1 1 0 (by decide)
  exact ⟨h.1, (h.2.2.2.2.2 rfl).1⟩

/-! Projection lemmas: the wrapper state projected onto the standalone
state commutes with every map and lock-state-machine operation. -/

section ProjLemmas

open AsyncWrapper

variable {w : List (Nat × Nat)}

theorem mapGet_projRefs (refs : List (K × SharedMutex × Nat)) (k : K) :
    mapGet (projRefs w refs) k
      = (mapGet refs k).map (fun p => (projMutex w p.1, p.2)) := by
  induction refs with
  | nil => rfl
  | cons e rest ih =>
    obtain ⟨k', m, rc⟩ := e
    simp only [projRefs] at ih ⊢
    by_cases hk : k = k' <;> simp [mapGet, hk, ih]

theorem projRefs_mapSet (refs : List (K × SharedMutex × Nat)) (k : K)
    (m : SharedMutex) (rc : Nat) :
    projRefs w (mapSet refs k (m, rc))
      = mapSet (projRefs w refs) k (projMutex w m, rc) := by
  induction refs with
  | nil => rfl
  | cons e rest ih =>
    obtain ⟨k', m', rc'⟩ := e
    simp only [projRefs] at ih ⊢
    by_cases hk : k = k' <;> simp [mapSet, hk, ih]

theorem projRefs_mapDelete (refs : List (K × SharedMutex × Nat)) (k : K) :
    projRefs w (mapDelete refs k) = mapDelete (projRefs w refs) k := by
  induction refs with
  | nil => rfl
  | cons e rest ih =>
    obtain ⟨k', m', rc'⟩ := e
    simp only [projRefs] at ih ⊢
    by_cases hk : k = k' <;> simp [mapDelete, hk, ih]

theorem projRefs_subRefMap (refs : List (K × SharedMutex × Nat)) (k : K) :
    projRefs w (subRefMap refs k) = subRefMap (projRefs w refs) k := by
  cases hget : mapGet refs k with
  | none =>
    have h2 : mapGet (projRefs w refs) k = none := by
      rw [mapGet_projRefs, hget]
      rfl
    rw [subRefMap, hget, subRefMap, h2]
  | some p =>
    obtain ⟨m, rc⟩ := p
    have h2 : mapGet (projRefs w refs) k = some (projMutex w m, rc) := by
      rw [mapGet_projRefs, hget]
      rfl
    rw [subRefMap, hget, subRefMap, h2]
    by_cases h1 : rc = 1 <;>
      simp [h1, projRefs_mapDelete, projRefs_mapSet]

theorem projRefs_setMutexAt (refs : List (K × SharedMutex × Nat)) (k : K)
    (m : SharedMutex) :
    projRefs w (setMutexAt refs k m)
      = setMutexAt (projRefs w refs) k (projMutex w m) := by
  cases hget : mapGet refs k with
  | none =>
    have h2 : mapGet (projRefs w refs) k = none := by
      rw [mapGet_projRefs, hget]
      rfl
    rw [setMutexAt, hget, setMutexAt, h2]
  | some p =>
    obtain ⟨m', rc⟩ := p
    have h2 : mapGet (projRefs w refs) k = some (projMutex w m', rc) := by
      rw [mapGet_projRefs, hget]
      rfl
    rw [setMutexAt, hget, setMutexAt, h2]
    exact projRefs_mapSet refs k m rc

theorem projMutex_enqueue (m : SharedMutex) (r : WaitReq) :
    projMutex w (m.enqueue r) = (projMutex w m).enqueue (ridTid w r) := by
  simp [projMutex, SharedMutex.enqueue]

theorem projMutex_grantEx (m : SharedMutex) :
    projMutex w m.grantEx = (projMutex w m).grantEx := rfl

theorem projMutex_grantSh (m : SharedMutex) :
    projMutex w m.grantSh = (projMutex w m).grantSh := rfl

theorem canGrantEx_proj (m : SharedMutex) :
    (projMutex w m).canGrantEx = m.canGrantEx := by
  cases hq : m.waitQueue <;> simp [SharedMutex.canGrantEx, projMutex, hq]

theorem kind_ridTid (r : WaitReq) : (ridTid w r).kind = r.kind := rfl

theorem canGrantSh_proj (m : SharedMutex) :
    (projMutex w m).canGrantSh = m.canGrantSh := by
  simp only [SharedMutex.canGrantSh, SharedMutex.noExclWaiting, projMutex,
    List.all_map]
  rfl

theorem promote_proj (m : SharedMutex) :
    SharedMutex.promote (projMutex w m)
      = (projMutex w (SharedMutex.promote m).1,
         (SharedMutex.promote m).2.map (ridTid w)) := by
  obtain ⟨holder, queue⟩ := m
  cases queue with
  | nil => rfl
  | cons r rest =>
    cases hr : r.kind with
    | ex =>
      simp [SharedMutex.promote, projMutex, kind_ridTid, hr]
    | sh =>
      have hpred : ((fun x : WaitReq => x.kind == ReqKind.sh) ∘ ridTid w)
          = fun x : WaitReq => x.kind == ReqKind.sh := funext fun x => rfl
      simp only [SharedMutex.promote, projMutex, List.map_cons, kind_ridTid, hr]
      simp only [← List.map_cons, List.takeWhile_map, List.dropWhile_map, hpred,
        List.length_map]

theorem releaseKind_proj (m : SharedMutex) (kd : ReqKind) :
    (projMutex w m).releaseKind kd
      = (projMutex w (m.releaseKind kd).1,
         (m.releaseKind kd).2.map (ridTid w)) := by
  obtain ⟨holder, queue⟩ := m
  cases kd with
  | ex =>
    cases holder with
    | exclusiveHeld =>
      simp only [SharedMutex.releaseKind, SharedMutex.releaseEx, projMutex]
      exact promote_proj ⟨.idle, queue⟩
    | idle => rfl
    | sharedHeld n => rfl
  | sh =>
    cases holder with
    | sharedHeld n =>
      match n with
      | 0 => rfl
      | 1 =>
        simp only [SharedMutex.releaseKind, SharedMutex.releaseSh, projMutex]
        exact promote_proj ⟨.idle, queue⟩
      | (n + 2) => rfl
    | idle => rfl
    | exclusiveHeld => rfl

theorem projMutex_append_waiting (m : SharedMutex) (p : Nat × Nat)
    (h : ∀ q ∈ m.waitQueue, q.rid ≠ p.1) :
    projMutex (w ++ [p]) m = projMutex w m := by
  simp only [projMutex, SharedMutex.mk.injEq, true_and]
  exact List.map_congr_left fun q hq => by
    simp [ridTid, mapGet_append_single_ne p (h q hq)]

theorem projRefs_append_waiting (refs : List (K × SharedMutex × Nat))
    (p : Nat × Nat)
    (h : ∀ e ∈ refs, ∀ q ∈ e.2.1.waitQueue, q.rid ≠ p.1) :
    projRefs (w ++ [p]) refs = projRefs w refs := by
  simp only [projRefs]
  exact List.map_congr_left fun e he => by
    rw [projMutex_append_waiting _ _ (h e he)]

end ProjLemmas

/-! Bookkeeping lemmas for the wrapper-standalone simulation. -/

section SimHelperLemmas

open AsyncWrapper

theorem ridsOf_append (l1 l2 : List (K × SharedMutex × Nat)) :
    ridsOf (l1 ++ l2) = ridsOf l1 ++ ridsOf l2 := by
  simp [ridsOf, List.flatMap_append]

theorem ridsOf_cons (e : K × SharedMutex × Nat) (l : List (K × SharedMutex × Nat)) :
    ridsOf (e :: l) = e.2.1.waitQueue.map WaitReq.rid ++ ridsOf l := by
  simp [ridsOf, List.flatMap_cons]

theorem ridsOf_single (k : K) (m : SharedMutex) (rc : Nat) :
    ridsOf [(k, m, rc)] = m.waitQueue.map WaitReq.rid := by
  simp [ridsOf]

theorem find?_append_some {α : Type} {l l' : List α} {p : α → Bool} {x : α}
    (h : l.find? p = some x) : (l ++ l').find? p = some x := by
  rw [List.find?_append, h]
  rfl

theorem find?_map_markHid (l : List (KHandle K)) (hid n : Nat) :
    (l.map (fun g : KHandle K =>
        if g.hid = hid then { g with unlocked := true } else g)).find?
        (fun g => g.hid == n)
      = (l.find? (fun g => g.hid == n)).map
          (fun g : KHandle K =>
            if g.hid = hid then { g with unlocked := true } else g) := by
  rw [List.find?_map]
  have hcomp : ((fun g : KHandle K => g.hid == n) ∘
      (fun g : KHandle K => if g.hid = hid then { g with unlocked := true } else g))
      = fun g : KHandle K => g.hid == n := by
    funext g
    by_cases hg : g.hid = hid <;> simp [hg]
  rw [hcomp]

theorem eraseP_map_snd (l : List (Nat × Nat × K × ReqKind)) (tid : Nat) :
    (l.eraseP (fun q => q.2.1 == tid)).map Prod.snd
      = (l.map Prod.snd).eraseP (fun q => q.1 == tid) := by
  induction l with
  | nil => rfl
  | cons a rest ih =>
    by_cases ha : a.2.1 = tid
    · simp [List.eraseP_cons, ha]
    · simp [List.eraseP_cons, ha, ih]

theorem find?_map_snd (l : List (Nat × Nat × K × ReqKind)) (tid : Nat) :
    (l.map Prod.snd).find? (fun q => q.1 == tid)
      = (l.find? (fun q => q.2.1 == tid)).map Prod.snd := by
  rw [List.find?_map]
  rfl

theorem eraseP_find?_facts {l : List (Nat × Nat × K × ReqKind)} {tid : Nat}
    {rf : Nat × Nat × K × ReqKind}
    (hfind : l.find? (fun q => q.2.1 == tid) = some rf)
    (hnd : (l.map (fun q => q.1)).Nodup) :
    ∀ r ∈ l.eraseP (fun q => q.2.1 == tid), r ∈ l ∧ r.1 ≠ rf.1 := by
  induction l with
  | nil => simp at hfind
  | cons a rest ih =>
    simp only [List.map_cons, List.nodup_cons] at hnd
    by_cases ha : a.2.1 = tid
    · rw [List.find?_cons_of_pos _ (by simp [ha])] at hfind
      cases hfind
      have hab : (rf.2.1 == tid) = true := by simp [ha]
      rw [List.eraseP_cons, hab, cond_true]
      intro r hr
      refine ⟨List.mem_cons_of_mem _ hr, ?_⟩
      intro hcontra
      exact hnd.1 (hcontra ▸ List.mem_map_of_mem (fun q => q.1) hr)
    · rw [List.find?_cons_of_neg _ (by simp [ha])] at hfind
      have hab : (a.2.1 == tid) = false := by simp [ha]
      rw [List.eraseP_cons, hab, cond_false]
      intro r hr
      rcases List.mem_cons.1 hr with rfl | hr'
      · refine ⟨List.mem_cons_self _ _, ?_⟩
        intro hcontra
        have hrf := List.mem_of_find?_eq_some hfind
        exact hnd.1 (hcontra ▸ List.mem_map_of_mem (fun q => q.1) hrf)
      · obtain ⟨hmem, hne⟩ := ih hfind hnd.2 r hr'
        exact ⟨List.mem_cons_of_mem _ hmem, hne⟩

theorem find?_none_of_lt {l : List (KHandle K)} {n : Nat}
    (hh : ∀ h ∈ l, h.hid < n) : l.find? (fun g => g.hid == n) = none := by
  rw [List.find?_eq_none]
  intro x hx
  simp only [beq_iff_eq]
  exact Nat.ne_of_lt (hh x hx)

theorem map_mark_id {l : List (KHandle K)} {n : Nat}
    (hh : ∀ h ∈ l, h.hid < n) :
    l.map (fun g : KHandle K =>
      if g.hid = n then { g with unlocked := true } else g) = l := by
  induction l with
  | nil => rfl
  | cons a rest ih =>
    have ha : a.hid ≠ n := Nat.ne_of_lt (hh a (List.mem_cons_self _ _))
    simp only [List.map_cons, if_neg ha]
    rw [ih (fun h hm => hh h (List.mem_cons_of_mem _ hm))]

theorem mapGet_middle {l1 l2 : List (K × SharedMutex × Nat)} {k : K}
    {v : SharedMutex × Nat} (hnone : mapGet l1 k = none) :
    mapGet (l1 ++ (k, v) :: l2) k = some v := by
  rw [mapGet_append_of_none hnone]
  simp [mapGet]

theorem mapSet_middle {l1 l2 : List (K × SharedMutex × Nat)} {k : K}
    {v : SharedMutex × Nat} (w : SharedMutex × Nat)
    (hnone : mapGet l1 k = none) :
    mapSet (l1 ++ (k, v) :: l2) k w = l1 ++ (k, w) :: l2 := by
  induction l1 with
  | nil => simp [mapSet]
  | cons e rest ih =>
    obtain ⟨k', v'⟩ := e
    by_cases hk : k = k'
    · simp [mapGet, hk] at hnone
    · simp only [mapGet, if_neg hk] at hnone
      simp [mapSet, hk, ih hnone]

theorem find?_handles_none {l : List (KHandle K)} {n : Nat}
    (h : n ∉ l.map KHandle.hid) : l.find? (fun g => g.hid == n) = none := by
  rw [List.find?_eq_none]
  intro x hx
  simp only [beq_iff_eq]
  intro hcontra
  exact h (hcontra ▸ List.mem_map_of_mem KHandle.hid hx)

theorem map_markHid_hids (l : List (KHandle K)) (hid : Nat) :
    (l.map (fun g : KHandle K =>
        if g.hid = hid then { g with unlocked := true } else g)).map KHandle.hid
      = l.map KHandle.hid := by
  rw [List.map_map]
  exact List.map_congr_left fun g _ => by
    by_cases hg : g.hid = hid <;> simp [hg]

theorem find?_admit_self {P : List WaitReq} (key : K)
    (hnd : (P.map WaitReq.rid).Nodup) {q : WaitReq} (hq : q ∈ P) :
    (P.map (fun r => (⟨r.rid, key, r.kind, false⟩ : KHandle K))).find?
        (fun g => g.hid == q.rid)
      = some ⟨q.rid, key, q.kind, false⟩ := by
  induction P with
  | nil => simp at hq
  | cons a rest ih =>
    simp only [List.map_cons, List.nodup_cons] at hnd
    rcases List.mem_cons.1 hq with rfl | hq'
    · rw [List.map_cons, List.find?_cons_of_pos _ (by simp)]
    · have hne : a.rid ≠ q.rid := by
        intro hcontra
        exact hnd.1 (hcontra ▸ List.mem_map_of_mem WaitReq.rid hq')
      rw [List.map_cons, List.find?_cons_of_neg _ (by simp [hne])]
      exact ih hnd.2 hq'

theorem releaseKind_queue_decomp (m : SharedMutex) (kd : ReqKind) :
    ((m.releaseKind kd).2 = [] ∧ (m.releaseKind kd).1.waitQueue = m.waitQueue) ∨
    m.waitQueue = (m.releaseKind kd).2 ++ (m.releaseKind kd).1.waitQueue := by
  have hpromote : ∀ q : List WaitReq,
      (SharedMutex.promote ⟨.idle, q⟩).2 = [] ∧
          (SharedMutex.promote ⟨.idle, q⟩).1.waitQueue = q ∨
        q = (SharedMutex.promote ⟨.idle, q⟩).2
          ++ (SharedMutex.promote ⟨.idle, q⟩).1.waitQueue := by
    intro q
    cases q with
    | nil => exact Or.inl ⟨rfl, rfl⟩
    | cons r rest =>
      cases hr : r.kind with
      | ex =>
        right
        simp [SharedMutex.promote, hr]
      | sh =>
        right
        simp only [SharedMutex.promote, hr]
        exact (List.takeWhile_append_dropWhile _ _).symm
  obtain ⟨holder, queue⟩ := m
  cases kd with
  | ex =>
    cases holder with
    | exclusiveHeld => exact hpromote queue
    | idle => exact Or.inl ⟨rfl, rfl⟩
    | sharedHeld n => exact Or.inl ⟨rfl, rfl⟩
  | sh =>
    cases holder with
    | sharedHeld n =>
      match n with
      | 0 => exact Or.inl ⟨rfl, rfl⟩
      | 1 => exact hpromote queue
      | (n + 2) => exact Or.inl ⟨rfl, rfl⟩
    | idle => exact Or.inl ⟨rfl, rfl⟩
    | exclusiveHeld => exact Or.inl ⟨rfl, rfl⟩

theorem nodup_reorder {hids P rl1 R rl2 : List Nat}
    (h : (hids ++ (rl1 ++ (P ++ (R ++ rl2)))).Nodup) :
    (hids ++ (P ++ (rl1 ++ (R ++ rl2)))).Nodup :=
  (List.Perm.append_left hids (List.perm_append_comm_assoc rl1 P (R ++ rl2))).nodup h

theorem rid_mem_ridsOf {refs : List (K × SharedMutex × Nat)} {k : K}
    {m : SharedMutex} {rc : Nat} (hget : mapGet refs k = some (m, rc))
    {q : WaitReq} (hq : q ∈ m.waitQueue) : q.rid ∈ ridsOf refs := by
  have hmem := mapGet_mem hget
  simp only [ridsOf, List.mem_flatMap]
  exact ⟨(k, m, rc), hmem, List.mem_map_of_mem WaitReq.rid hq⟩

theorem mapDelete_middle {l1 l2 : List (K × SharedMutex × Nat)} {k : K}
    {v : SharedMutex × Nat} (hnone : mapGet l1 k = none) :
    mapDelete (l1 ++ (k, v) :: l2) k = l1 ++ l2 := by
  induction l1 with
  | nil => simp [mapDelete]
  | cons e rest ih =>
    obtain ⟨k', v'⟩ := e
    by_cases hk : k = k'
    · simp [mapGet, hk] at hnone
    · simp only [mapGet, if_neg hk] at hnone
      simp [mapDelete, hk, ih hnone]

theorem nodup_insert4 {A B C D : List Nat} {n : Nat}
    (h : (A ++ (B ++ (C ++ D))).Nodup) (hn : n ∉ A ++ (B ++ (C ++ D))) :
    (A ++ (B ++ (C ++ (n :: D)))).Nodup := by
  have heq : A ++ (B ++ (C ++ (n :: D))) = (A ++ B ++ C) ++ n :: D := by
    simp [List.append_assoc]
  rw [heq, List.nodup_middle]
  refine List.nodup_cons.2 ⟨?_, ?_⟩
  · simpa [List.append_assoc] using hn
  · simpa [List.append_assoc] using h

/-- Well-formedness survives an immediately granted acquisition: a fresh
handle (id `nextId`) is issued, the running list gains the corresponding
task, and no wait queue changes. -/
theorem winv_grant_aux {km : KMState K} {waiting : List (Nat × Nat)}
    {running : List (Nat × Nat × K × ReqKind)} {nulls : List Nat}
    (hinv : AsyncWrapper.WInv ⟨km, waiting, running, nulls⟩)
    {refs' : List (K × SharedMutex × Nat)} {G : List Nat}
    (hrids : ridsOf refs' = ridsOf km.mutexRefs)
    (k : K) (tid : Nat) (kd : ReqKind) :
    AsyncWrapper.WInv
      ⟨⟨refs', km.handles ++ [⟨km.nextId, k, kd, false⟩], G, km.nextId + 1⟩,
       waiting, running ++ [(km.nextId, tid, k, kd)], nulls⟩ := by
  obtain ⟨hhb, hqb, hwb, hnd, hrh, hrn⟩ := hinv
  dsimp only at hhb hqb hwb hnd hrh hrn
  have hrunb : ∀ r ∈ running, r.1 < km.nextId := by
    intro r hr
    exact hhb _ (List.mem_of_find?_eq_some (hrh r hr))
  refine ⟨?_, ?_, ?_, ?_, ?_, ?_⟩ <;> dsimp only
  · intro h hm
    rcases List.mem_append.1 hm with hm | hm
    · exact Nat.lt_succ_of_lt (hhb h hm)
    · simp only [List.mem_singleton] at hm
      subst hm
      exact Nat.lt_succ_self _
  · intro i him
    rw [hrids] at him
    exact Nat.lt_succ_of_lt (hqb i him)
  · intro p hp
    exact Nat.lt_succ_of_lt (hwb p hp)
  · simp only [List.map_append, List.map_singleton, hrids, List.append_assoc,
      List.singleton_append]
    rw [List.nodup_middle]
    refine List.nodup_cons.2 ⟨?_, hnd⟩
    intro hcontra
    rcases List.mem_append.1 hcontra with hmm | hmm
    · obtain ⟨h, hh, hh2⟩ := List.mem_map.1 hmm
      have := hhb h hh
      omega
    · exact absurd (hqb _ hmm) (by omega)
  · intro r hr
    rcases List.mem_append.1 hr with hr | hr
    · exact find?_append_some (hrh r hr)
    · simp only [List.mem_singleton] at hr
      subst hr
      rw [List.find?_append, find?_none_of_lt hhb]
      simp [List.find?]
  · simp only [List.map_append, List.map_singleton]
    rw [List.nodup_middle]
    refine List.nodup_cons.2 ⟨?_, by simpa using hrn⟩
    simp only [List.append_nil, List.mem_map]
    rintro ⟨r, hr, hr2⟩
    have := hrunb r hr
    omega

/-- Well-formedness survives a queued acquisition: a fresh request id
(`nextId`) joins the tail of the key's wait queue and is recorded as
pending for the submitted task. -/
theorem winv_queue_aux {km : KMState K} {waiting : List (Nat × Nat)}
    {running : List (Nat × Nat × K × ReqKind)} {nulls : List Nat}
    (hinv : AsyncWrapper.WInv ⟨km, waiting, running, nulls⟩)
    {l1 l2 : List (K × SharedMutex × Nat)} {k : K} {m : SharedMutex} {rc : Nat}
    (hdecomp : km.mutexRefs = l1 ++ (k, (m, rc)) :: l2)
    {rc' : Nat} {G : List Nat} (kd : ReqKind) (tid : Nat) :
    AsyncWrapper.WInv
      ⟨⟨l1 ++ (k, (m.enqueue ⟨km.nextId, kd⟩, rc')) :: l2, km.handles, G,
        km.nextId + 1⟩,
       waiting ++ [(km.nextId, tid)], running, nulls⟩ := by
  obtain ⟨hhb, hqb, hwb, hnd, hrh, hrn⟩ := hinv
  dsimp only at hhb hqb hwb hnd hrh hrn
  rw [hdecomp] at hqb hnd
  have hqb' : ∀ i, i ∈ ridsOf l1 ∨ i ∈ m.waitQueue.map WaitReq.rid ∨ i ∈ ridsOf l2 →
      i < km.nextId := by
    intro i him
    refine hqb i ?_
    simp only [ridsOf_append, ridsOf_cons, List.mem_append]
    tauto
  refine ⟨?_, ?_, ?_, ?_, ?_, ?_⟩ <;> dsimp only
  · intro h hm
    exact Nat.lt_succ_of_lt (hhb h hm)
  · intro i him
    simp only [ridsOf_append, ridsOf_cons, SharedMutex.enqueue, List.map_append,
      List.map_singleton, List.append_assoc, List.mem_append,
      List.mem_singleton] at him
    rcases him with h1 | h2 | h3 | h4
    · exact Nat.lt_succ_of_lt (hqb' i (Or.inl h1))
    · exact Nat.lt_succ_of_lt (hqb' i (Or.inr (Or.inl h2)))
    · subst h3
      exact Nat.lt_succ_self _
    · exact Nat.lt_succ_of_lt (hqb' i (Or.inr (Or.inr h4)))
  · intro p hp
    rcases List.mem_append.1 hp with hp | hp
    · exact Nat.lt_succ_of_lt (hwb p hp)
    · simp only [List.mem_singleton] at hp
      subst hp
      exact Nat.lt_succ_self _
  · simp only [ridsOf_append, ridsOf_cons, SharedMutex.enqueue, List.map_append,
      List.map_singleton, List.append_assoc, List.singleton_append]
    refine nodup_insert4 ?_ ?_
    · simpa only [ridsOf_append, ridsOf_cons, List.append_assoc] using hnd
    · intro hcontra
      simp only [List.mem_append, List.mem_map] at hcontra
      rcases hcontra with ⟨h, hh, hh2⟩ | hmm | hmm | hmm
      · have := hhb h hh
        omega
      · exact absurd (hqb' _ (Or.inl hmm)) (by omega)
      · exact absurd (hqb' _ (Or.inr (Or.inl (by simpa using hmm)))) (by omega)
      · exact absurd (hqb' _ (Or.inr (Or.inr hmm))) (by omega)
  · exact hrh
  · exact hrn

theorem mem_ridsOf_of_mem {refs : List (K × SharedMutex × Nat)}
    (e : K × SharedMutex × Nat) (he : e ∈ refs) {q : WaitReq}
    (hq : q ∈ e.2.1.waitQueue) : q.rid ∈ ridsOf refs := by
  simp only [ridsOf, List.mem_flatMap]
  exact ⟨e, he, List.mem_map_of_mem WaitReq.rid hq⟩

theorem projRefs_waiting_snoc {w : List (Nat × Nat)}
    {refs : List (K × SharedMutex × Nat)} {n : Nat} (tid : Nat)
    (hqb : ∀ i ∈ ridsOf refs, i < n) :
    AsyncWrapper.projRefs (w ++ [(n, tid)]) refs = AsyncWrapper.projRefs w refs :=
  projRefs_append_waiting refs (n, tid)
    (fun e he q hq => Nat.ne_of_lt (hqb _ (mem_ridsOf_of_mem e he hq)))

theorem projMutex_waiting_snoc {w : List (Nat × Nat)} {m : SharedMutex}
    {n : Nat} (tid : Nat) (h : ∀ q ∈ m.waitQueue, q.rid < n) :
    AsyncWrapper.projMutex (w ++ [(n, tid)]) m = AsyncWrapper.projMutex w m :=
  projMutex_append_waiting m (n, tid) (fun q hq => Nat.ne_of_lt (h q hq))

theorem ridTid_snoc_self {w : List (Nat × Nat)} {n tid : Nat}
    (hw : ∀ p ∈ w, p.1 < n) (kd : ReqKind) :
    AsyncWrapper.ridTid (w ++ [(n, tid)]) ⟨n, kd⟩ = ⟨tid, kd⟩ := by
  have hnone : mapGet w n = none := by
    apply mapGet_eq_none_of_not_mem
    intro hmem
    obtain ⟨p, hp, he⟩ := List.mem_map.1 hmem
    exact absurd (hw p hp) (by omega)
  simp [AsyncWrapper.ridTid, mapGet_append_of_none hnone, mapGet]

end SimHelperLemmas

/-! The step-level simulation: each event preserves well-formedness of the
wrapper state and commutes with the projection onto the standalone state. -/

section SimSteps

open AsyncWrapper AsyncStandalone

theorem lock_sim (km : KMState K) (w : List (Nat × Nat))
    (run : List (Nat × Nat × K × ReqKind)) (nulls : List Nat) (k : K) (tid : Nat)
    (hinv : WInv ⟨km, w, run, nulls⟩) :
    WInv ((⟨km, w, run, nulls⟩ : WState K).lock k tid) ∧
    projW ((⟨km, w, run, nulls⟩ : WState K).lock k tid)
      = ASMState.lock (projW ⟨km, w, run, nulls⟩) k tid := by
  rcases hget : mapGet km.mutexRefs k with _ | ⟨m, rc⟩
  · -- fresh key: constructed Idle lock is granted at once
    have h1 : mapGet (km.mutexRefs ++ [(k, (SharedMutex.new, 1))]) k
        = some (SharedMutex.new, 1) := mapGet_middle hget
    have hkm : km.lock k =
        ({ mutexRefs := km.mutexRefs ++ [(k, (SharedMutex.new.grantEx, 1))],
           handles := km.handles ++ [⟨km.nextId, k, .ex, false⟩],
           grants := km.grants ++ [km.nextId],
           nextId := km.nextId + 1 }, .granted km.nextId) := by
      simp only [KMState.lock, track_of_get_none hget, canGrantEx_new, if_true,
        KMState.issue, setMutexAt, mapSet_of_get_none, mapGet_middle,
        mapSet_middle, hget, List.map_cons, List.map_nil]
    have hw : (⟨km, w, run, nulls⟩ : WState K).lock k tid =
        ⟨{ mutexRefs := km.mutexRefs ++ [(k, (SharedMutex.new.grantEx, 1))],
           handles := km.handles ++ [⟨km.nextId, k, .ex, false⟩],
           grants := km.grants ++ [km.nextId],
           nextId := km.nextId + 1 },
         w, run ++ [(km.nextId, tid, k, .ex)], nulls⟩ := by
      simp only [WState.lock, hkm]
    have h2 : mapGet (projRefs w km.mutexRefs) k = none := by
      rw [mapGet_projRefs, hget]
      rfl
    have h3 : mapGet (projRefs w km.mutexRefs ++ [(k, (SharedMutex.new, 1))]) k
        = some (SharedMutex.new, 1) := mapGet_middle h2
    have ha : ASMState.lock (projW ⟨km, w, run, nulls⟩) k tid =
        ⟨projRefs w km.mutexRefs ++ [(k, (SharedMutex.new.grantEx, 1))],
         run.map Prod.snd ++ [(tid, k, .ex)], nulls⟩ := by
      simp only [ASMState.lock, ASMState.track, projW, h2, canGrantEx_new, if_true,
        setMutexAt, mapSet_of_get_none, mapGet_middle, mapSet_middle]
    rw [hw, ha]
    refine ⟨winv_grant_aux hinv ?_ k tid .ex, ?_⟩
    · simp [ridsOf_append, ridsOf_single, SharedMutex.grantEx, SharedMutex.new]
    · simp [projW, projRefs, projMutex, SharedMutex.grantEx, SharedMutex.new]
  · obtain ⟨l1, l2, hdecomp, hl1none, hsetfn, hdelfn⟩ := get_decomp hget
    have h2 : mapGet (projRefs w km.mutexRefs) k = some (projMutex w m, rc) := by
      rw [mapGet_projRefs, hget]
      rfl
    have hQ : projRefs w km.mutexRefs
        = projRefs w l1 ++ (k, (projMutex w m, rc)) :: projRefs w l2 := by
      rw [hdecomp]
      simp [projRefs]
    have hkeys : mapGet (projRefs w l1) k = none := by
      rw [mapGet_projRefs, hl1none]
      rfl
    by_cases hcan : m.canGrantEx
    · -- held entry, immediately grantable
      have h1 : mapGet (l1 ++ (k, (m, rc + 1)) :: l2) k = some (m, rc + 1) :=
        mapGet_middle hl1none
      have hkm : km.lock k =
          ({ mutexRefs := l1 ++ (k, (m.grantEx, rc + 1)) :: l2,
             handles := km.handles ++ [⟨km.nextId, k, .ex, false⟩],
             grants := km.grants ++ [km.nextId],
             nextId := km.nextId + 1 }, .granted km.nextId) := by
        simp only [KMState.lock, track_of_get_some hget, hcan, if_true,
          KMState.issue, hsetfn, setMutexAt, mapGet_middle, mapSet_middle,
          hl1none, List.map_cons, List.map_nil]
      have hw : (⟨km, w, run, nulls⟩ : WState K).lock k tid =
          ⟨{ mutexRefs := l1 ++ (k, (m.grantEx, rc + 1)) :: l2,
             handles := km.handles ++ [⟨km.nextId, k, .ex, false⟩],
             grants := km.grants ++ [km.nextId],
             nextId := km.nextId + 1 },
           w, run ++ [(km.nextId, tid, k, .ex)], nulls⟩ := by
        simp only [WState.lock, hkm]
      have h1p : mapGet (projRefs w l1 ++ (k, (projMutex w m, rc + 1))
            :: projRefs w l2) k = some (projMutex w m, rc + 1) :=
        mapGet_middle hkeys
      have ha : ASMState.lock (projW ⟨km, w, run, nulls⟩) k tid =
          ⟨projRefs w l1 ++ (k, ((projMutex w m).grantEx, rc + 1)) :: projRefs w l2,
           run.map Prod.snd ++ [(tid, k, .ex)], nulls⟩ := by
        simp only [ASMState.lock, ASMState.track, projW, h2, canGrantEx_proj, hcan,
          if_true, hQ, setMutexAt, mapGet_middle, mapSet_middle, hkeys]
      rw [hw, ha]
      refine ⟨winv_grant_aux hinv ?_ k tid .ex, ?_⟩
      · rw [hdecomp]
        simp [ridsOf_append, ridsOf_cons, SharedMutex.grantEx]
      · simp only [projW, projRefs, List.map_append, List.map_cons]
        simp [projMutex_grantEx]
    · -- held entry, not grantable: the request queues
      have hkm : km.lock k =
          ({ mutexRefs := l1 ++ (k, (m.enqueue ⟨km.nextId, .ex⟩, rc + 1)) :: l2,
             handles := km.handles,
             grants := km.grants,
             nextId := km.nextId + 1 }, .pendingReq km.nextId) := by
        simp only [KMState.lock, track_of_get_some hget, hcan, Bool.false_eq_true,
          if_false, hsetfn, setMutexAt, mapGet_middle, mapSet_middle, hl1none]
      have hw : (⟨km, w, run, nulls⟩ : WState K).lock k tid =
          ⟨{ mutexRefs := l1 ++ (k, (m.enqueue ⟨km.nextId, .ex⟩, rc + 1)) :: l2,
             handles := km.handles,
             grants := km.grants,
             nextId := km.nextId + 1 },
           w ++ [(km.nextId, tid)], run, nulls⟩ := by
        simp only [WState.lock, hkm]
      have ha : ASMState.lock (projW ⟨km, w, run, nulls⟩) k tid =
          ⟨projRefs w l1
              ++ (k, ((projMutex w m).enqueue ⟨tid, .ex⟩, rc + 1)) :: projRefs w l2,
           run.map Prod.snd, nulls⟩ := by
        simp only [ASMState.lock, ASMState.track, projW, h2, canGrantEx_proj, hcan,
          Bool.false_eq_true, if_false, hQ, setMutexAt, mapGet_middle,
          mapSet_middle, hkeys]
      rw [hw, ha]
      refine ⟨winv_queue_aux hinv hdecomp .ex tid, ?_⟩
      obtain ⟨hhb, hqb, hwb, hnd, hrh, hrn⟩ := hinv
      dsimp only at hqb hwb
      have hql1 : ∀ e ∈ l1, ∀ q ∈ e.2.1.waitQueue, q.rid < km.nextId := by
        intro e he q hq
        refine hqb _ (mem_ridsOf_of_mem e ?_ hq)
        rw [hdecomp]
        exact List.mem_append_left _ he
      have hql2 : ∀ e ∈ l2, ∀ q ∈ e.2.1.waitQueue, q.rid < km.nextId := by
        intro e he q hq
        refine hqb _ (mem_ridsOf_of_mem e ?_ hq)
        rw [hdecomp]
        exact List.mem_append_right _ (List.mem_cons_of_mem _ he)
      have hqm : ∀ q ∈ m.waitQueue, q.rid < km.nextId := fun q hq =>
        hqb _ (rid_mem_ridsOf hget hq)
      have hl1stab : projRefs (w ++ [(km.nextId, tid)]) l1 = projRefs w l1 :=
        projRefs_append_waiting l1 (km.nextId, tid)
          (fun e he q hq => Nat.ne_of_lt (hql1 e he q hq))
      have hl2stab : projRefs (w ++ [(km.nextId, tid)]) l2 = projRefs w l2 :=
        projRefs_append_waiting l2 (km.nextId, tid)
          (fun e he q hq => Nat.ne_of_lt (hql2 e he q hq))
      have hmid : projMutex (w ++ [(km.nextId, tid)]) (m.enqueue ⟨km.nextId, .ex⟩)
          = (projMutex w m).enqueue ⟨tid, .ex⟩ := by
        rw [projMutex_enqueue, projMutex_waiting_snoc tid hqm,
          ridTid_snoc_self hwb ReqKind.ex]
      simp only [projW, projRefs, List.map_append, List.map_cons]
      simp only [projRefs] at hl1stab hl2stab
      rw [hl1stab, hl2stab, hmid]


theorem winv_fail_aux {km : KMState K} {waiting : List (Nat × Nat)}
    {running : List (Nat × Nat × K × ReqKind)} {nulls : List Nat}
    (hinv : WInv ⟨km, waiting, running, nulls⟩)
    {k : K} {m : SharedMutex} {rc : Nat}
    (hget : mapGet km.mutexRefs k = some (m, rc)) (nulls' : List Nat) :
    WInv ⟨⟨subRefMap (mapSet km.mutexRefs k (m, rc + 1)) k, km.handles,
      km.grants, km.nextId⟩, waiting, running, nulls'⟩ := by
  obtain ⟨l1, l2, hdecomp, hl1none, hsetfn, hdelfn⟩ := get_decomp hget
  have h1 : mapGet (l1 ++ (k, (m, rc + 1)) :: l2) k = some (m, rc + 1) :=
    mapGet_middle hl1none
  obtain ⟨hhb, hqb, hwb, hnd, hrh, hrn⟩ := hinv
  dsimp only at hhb hqb hwb hnd hrh hrn
  by_cases h0 : rc = 0
  · -- the transiently created reference was the only one: entry evicted
    subst h0
    have hrefs' : subRefMap (mapSet km.mutexRefs k (m, 0 + 1)) k = l1 ++ l2 := by
      rw [hsetfn (m, 0 + 1), subRefMap, h1]
      simp only [if_pos rfl]
      exact mapDelete_middle hl1none
    rw [hrefs']
    have hsub : (ridsOf (l1 ++ l2)).Sublist (ridsOf km.mutexRefs) := by
      rw [hdecomp]
      simp only [ridsOf_append, ridsOf_cons]
      exact (List.sublist_append_right _ _).append_left _
    refine ⟨hhb, ?_, hwb, ?_, hrh, hrn⟩
    · intro i him
      exact hqb i (hsub.subset him)
    · exact List.Nodup.sublist (hsub.append_left _) hnd
  · -- other references remain: the refCount is simply restored
    have hrefs' : subRefMap (mapSet km.mutexRefs k (m, rc + 1)) k
        = km.mutexRefs := by
      rw [hsetfn (m, rc + 1), subRefMap, h1]
      simp only [if_neg (by omega : ¬rc + 1 = 1), Nat.add_sub_cancel]
      rw [mapSet_middle _ hl1none, ← hdecomp]
    rw [hrefs']
    exact ⟨hhb, hqb, hwb, hnd, hrh, hrn⟩

theorem lockShared_sim (km : KMState K) (w : List (Nat × Nat))
    (run : List (Nat × Nat × K × ReqKind)) (nulls : List Nat) (k : K) (tid : Nat)
    (hinv : WInv ⟨km, w, run, nulls⟩) :
    WInv ((⟨km, w, run, nulls⟩ : WState K).lockShared k tid) ∧
    projW ((⟨km, w, run, nulls⟩ : WState K).lockShared k tid)
      = ASMState.lockShared (projW ⟨km, w, run, nulls⟩) k tid := by
  rcases hget : mapGet km.mutexRefs k with _ | ⟨m, rc⟩
  · have h1 : mapGet (km.mutexRefs ++ [(k, (SharedMutex.new, 1))]) k
        = some (SharedMutex.new, 1) := mapGet_middle hget
    have hkm : km.lockShared k =
        ({ mutexRefs := km.mutexRefs ++ [(k, (SharedMutex.new.grantSh, 1))],
           handles := km.handles ++ [⟨km.nextId, k, .sh, false⟩],
           grants := km.grants ++ [km.nextId],
           nextId := km.nextId + 1 }, .granted km.nextId) := by
      simp only [KMState.lockShared, track_of_get_none hget, canGrantSh_new,
        if_true, KMState.issue, setMutexAt, mapSet_of_get_none, mapGet_middle,
        mapSet_middle, hget, List.map_cons, List.map_nil]
    have hw : (⟨km, w, run, nulls⟩ : WState K).lockShared k tid =
        ⟨{ mutexRefs := km.mutexRefs ++ [(k, (SharedMutex.new.grantSh, 1))],
           handles := km.handles ++ [⟨km.nextId, k, .sh, false⟩],
           grants := km.grants ++ [km.nextId],
           nextId := km.nextId + 1 },
         w, run ++ [(km.nextId, tid, k, .sh)], nulls⟩ := by
      simp only [WState.lockShared, hkm]
    have h2 : mapGet (projRefs w km.mutexRefs) k = none := by
      rw [mapGet_projRefs, hget]
      rfl
    have ha : ASMState.lockShared (projW ⟨km, w, run, nulls⟩) k tid =
        ⟨projRefs w km.mutexRefs ++ [(k, (SharedMutex.new.grantSh, 1))],
         run.map Prod.snd ++ [(tid, k, .sh)], nulls⟩ := by
      simp only [ASMState.lockShared, ASMState.track, projW, h2, canGrantSh_new,
        if_true, setMutexAt, mapSet_of_get_none, mapGet_middle, mapSet_middle]
    rw [hw, ha]
    refine ⟨winv_grant_aux hinv ?_ k tid .sh, ?_⟩
    · simp [ridsOf_append, ridsOf_single, SharedMutex.grantSh, SharedMutex.new]
    · simp [projW, projRefs, projMutex, SharedMutex.grantSh, SharedMutex.new,
        HolderState.incShared]
  · obtain ⟨l1, l2, hdecomp, hl1none, hsetfn, hdelfn⟩ := get_decomp hget
    have h2 : mapGet (projRefs w km.mutexRefs) k = some (projMutex w m, rc) := by
      rw [mapGet_projRefs, hget]
      rfl
    have hQ : projRefs w km.mutexRefs
        = projRefs w l1 ++ (k, (projMutex w m, rc)) :: projRefs w l2 := by
      rw [hdecomp]
      simp [projRefs]
    have hkeys : mapGet (projRefs w l1) k = none := by
      rw [mapGet_projRefs, hl1none]
      rfl
    by_cases hcan : m.canGrantSh
    · have hkm : km.lockShared k =
          ({ mutexRefs := l1 ++ (k, (m.grantSh, rc + 1)) :: l2,
             handles := km.handles ++ [⟨km.nextId, k, .sh, false⟩],
             grants := km.grants ++ [km.nextId],
             nextId := km.nextId + 1 }, .granted km.nextId) := by
        simp only [KMState.lockShared, track_of_get_some hget, hcan, if_true,
          KMState.issue, hsetfn, setMutexAt, mapGet_middle, mapSet_middle,
          hl1none, List.map_cons, List.map_nil]
      have hw : (⟨km, w, run, nulls⟩ : WState K).lockShared k tid =
          ⟨{ mutexRefs := l1 ++ (k, (m.grantSh, rc + 1)) :: l2,
             handles := km.handles ++ [⟨km.nextId, k, .sh, false⟩],
             grants := km.grants ++ [km.nextId],
             nextId := km.nextId + 1 },
           w, run ++ [(km.nextId, tid, k, .sh)], nulls⟩ := by
        simp only [WState.lockShared, hkm]
      have ha : ASMState.lockShared (projW ⟨km, w, run, nulls⟩) k tid =
          ⟨projRefs w l1 ++ (k, ((projMutex w m).grantSh, rc + 1)) :: projRefs w l2,
           run.map Prod.snd ++ [(tid, k, .sh)], nulls⟩ := by
        simp only [ASMState.lockShared, ASMState.track, projW, h2, canGrantSh_proj,
          hcan, if_true, hQ, setMutexAt, mapGet_middle, mapSet_middle, hkeys]
      rw [hw, ha]
      refine ⟨winv_grant_aux hinv ?_ k tid .sh, ?_⟩
      · rw [hdecomp]
        simp [ridsOf_append, ridsOf_cons, SharedMutex.grantSh]
      · simp only [projW, projRefs, List.map_append, List.map_cons]
        simp [projMutex_grantSh]
    · have hkm : km.lockShared k =
          ({ mutexRefs := l1 ++ (k, (m.enqueue ⟨km.nextId, .sh⟩, rc + 1)) :: l2,
             handles := km.handles,
             grants := km.grants,
             nextId := km.nextId + 1 }, .pendingReq km.nextId) := by
        simp only [KMState.lockShared, track_of_get_some hget, hcan,
          Bool.false_eq_true, if_false, hsetfn, setMutexAt, mapGet_middle,
          mapSet_middle, hl1none]
      have hw : (⟨km, w, run, nulls⟩ : WState K).lockShared k tid =
          ⟨{ mutexRefs := l1 ++ (k, (m.enqueue ⟨km.nextId, .sh⟩, rc + 1)) :: l2,
             handles := km.handles,
             grants := km.grants,
             nextId := km.nextId + 1 },
           w ++ [(km.nextId, tid)], run, nulls⟩ := by
        simp only [WState.lockShared, hkm]
      have ha : ASMState.lockShared (projW ⟨km, w, run, nulls⟩) k tid =
          ⟨projRefs w l1
              ++ (k, ((projMutex w m).enqueue ⟨tid, .sh⟩, rc + 1)) :: projRefs w l2,
           run.map Prod.snd, nulls⟩ := by
        simp only [ASMState.lockShared, ASMState.track, projW, h2, canGrantSh_proj,
          hcan, Bool.false_eq_true, if_false, hQ, setMutexAt, mapGet_middle,
          mapSet_middle, hkeys]
      rw [hw, ha]
      refine ⟨winv_queue_aux hinv hdecomp .sh tid, ?_⟩
      obtain ⟨hhb, hqb, hwb, hnd, hrh, hrn⟩ := hinv
      dsimp only at hqb hwb
      have hql1 : ∀ e ∈ l1, ∀ q ∈ e.2.1.waitQueue, q.rid < km.nextId := by
        intro e he q hq
        refine hqb _ (mem_ridsOf_of_mem e ?_ hq)
        rw [hdecomp]
        exact List.mem_append_left _ he
      have hql2 : ∀ e ∈ l2, ∀ q ∈ e.2.1.waitQueue, q.rid < km.nextId := by
        intro e he q hq
        refine hqb _ (mem_ridsOf_of_mem e ?_ hq)
        rw [hdecomp]
        exact List.mem_append_right _ (List.mem_cons_of_mem _ he)
      have hqm : ∀ q ∈ m.waitQueue, q.rid < km.nextId := fun q hq =>
        hqb _ (rid_mem_ridsOf hget hq)
      have hl1stab : projRefs (w ++ [(km.nextId, tid)]) l1 = projRefs w l1 :=
        projRefs_append_waiting l1 (km.nextId, tid)
          (fun e he q hq => Nat.ne_of_lt (hql1 e he q hq))
      have hl2stab : projRefs (w ++ [(km.nextId, tid)]) l2 = projRefs w l2 :=
        projRefs_append_waiting l2 (km.nextId, tid)
          (fun e he q hq => Nat.ne_of_lt (hql2 e he q hq))
      have hmid : projMutex (w ++ [(km.nextId, tid)]) (m.enqueue ⟨km.nextId, .sh⟩)
          = (projMutex w m).enqueue ⟨tid, .sh⟩ := by
        rw [projMutex_enqueue, projMutex_waiting_snoc tid hqm,
          ridTid_snoc_self hwb ReqKind.sh]
      simp only [projW, projRefs, List.map_append, List.map_cons]
      simp only [projRefs] at hl1stab hl2stab
      rw [hl1stab, hl2stab, hmid]

theorem tryLock_sim (km : KMState K) (w : List (Nat × Nat))
    (run : List (Nat × Nat × K × ReqKind)) (nulls : List Nat) (k : K) (tid : Nat)
    (hinv : WInv ⟨km, w, run, nulls⟩) :
    WInv ((⟨km, w, run, nulls⟩ : WState K).tryLock k tid) ∧
    projW ((⟨km, w, run, nulls⟩ : WState K).tryLock k tid)
      = ASMState.tryLock (projW ⟨km, w, run, nulls⟩) k tid := by
  rcases hget : mapGet km.mutexRefs k with _ | ⟨m, rc⟩
  · have hkm : km.tryLock k =
        ({ mutexRefs := km.mutexRefs ++ [(k, (SharedMutex.new.grantEx, 1))],
           handles := km.handles ++ [⟨km.nextId, k, .ex, false⟩],
           grants := km.grants ++ [km.nextId],
           nextId := km.nextId + 1 }, .granted km.nextId) := by
      simp only [KMState.tryLock, track_of_get_none hget, canGrantEx_new, if_true,
        KMState.issue, setMutexAt, mapSet_of_get_none, mapGet_middle,
        mapSet_middle, hget, List.map_cons, List.map_nil]
    have hw : (⟨km, w, run, nulls⟩ : WState K).tryLock k tid =
        ⟨{ mutexRefs := km.mutexRefs ++ [(k, (SharedMutex.new.grantEx, 1))],
           handles := km.handles ++ [⟨km.nextId, k, .ex, false⟩],
           grants := km.grants ++ [km.nextId],
           nextId := km.nextId + 1 },
         w, run ++ [(km.nextId, tid, k, .ex)], nulls⟩ := by
      simp only [WState.tryLock, hkm]
    have h2 : mapGet (projRefs w km.mutexRefs) k = none := by
      rw [mapGet_projRefs, hget]
      rfl
    have ha : ASMState.tryLock (projW ⟨km, w, run, nulls⟩) k tid =
        ⟨projRefs w km.mutexRefs ++ [(k, (SharedMutex.new.grantEx, 1))],
         run.map Prod.snd ++ [(tid, k, .ex)], nulls⟩ := by
      simp only [ASMState.tryLock, ASMState.track, projW, h2, canGrantEx_new,
        if_true, setMutexAt, mapSet_of_get_none, mapGet_middle, mapSet_middle]
    rw [hw, ha]
    refine ⟨winv_grant_aux hinv ?_ k tid .ex, ?_⟩
    · simp [ridsOf_append, ridsOf_single, SharedMutex.grantEx, SharedMutex.new]
    · simp [projW, projRefs, projMutex, SharedMutex.grantEx, SharedMutex.new]
  · obtain ⟨l1, l2, hdecomp, hl1none, hsetfn, hdelfn⟩ := get_decomp hget
    have h2 : mapGet (projRefs w km.mutexRefs) k = some (projMutex w m, rc) := by
      rw [mapGet_projRefs, hget]
      rfl
    have hQ : projRefs w km.mutexRefs
        = projRefs w l1 ++ (k, (projMutex w m, rc)) :: projRefs w l2 := by
      rw [hdecomp]
      simp [projRefs]
    have hkeys : mapGet (projRefs w l1) k = none := by
      rw [mapGet_projRefs, hl1none]
      rfl
    by_cases hcan : m.canGrantEx
    · have hkm : km.tryLock k =
          ({ mutexRefs := l1 ++ (k, (m.grantEx, rc + 1)) :: l2,
             handles := km.handles ++ [⟨km.nextId, k, .ex, false⟩],
             grants := km.grants ++ [km.nextId],
             nextId := km.nextId + 1 }, .granted km.nextId) := by
        simp only [KMState.tryLock, track_of_get_some hget, hcan, if_true,
          KMState.issue, hsetfn, setMutexAt, mapGet_middle, mapSet_middle,
          hl1none, List.map_cons, List.map_nil]
      have hw : (⟨km, w, run, nulls⟩ : WState K).tryLock k tid =
          ⟨{ mutexRefs := l1 ++ (k, (m.grantEx, rc + 1)) :: l2,
             handles := km.handles ++ [⟨km.nextId, k, .ex, false⟩],
             grants := km.grants ++ [km.nextId],
             nextId := km.nextId + 1 },
           w, run ++ [(km.nextId, tid, k, .ex)], nulls⟩ := by
        simp only [WState.tryLock, hkm]
      have ha : ASMState.tryLock (projW ⟨km, w, run, nulls⟩) k tid =
          ⟨projRefs w l1 ++ (k, ((projMutex w m).grantEx, rc + 1)) :: projRefs w l2,
           run.map Prod.snd ++ [(tid, k, .ex)], nulls⟩ := by
        simp only [ASMState.tryLock, ASMState.track, projW, h2, canGrantEx_proj,
          hcan, if_true, hQ, setMutexAt, mapGet_middle, mapSet_middle, hkeys]
      rw [hw, ha]
      refine ⟨winv_grant_aux hinv ?_ k tid .ex, ?_⟩
      · rw [hdecomp]
        simp [ridsOf_append, ridsOf_cons, SharedMutex.grantEx]
      · simp only [projW, projRefs, List.map_append, List.map_cons]
        simp [projMutex_grantEx]
    · -- the try fails: subRef runs inside the call, null recorded
      have hkm : km.tryLock k =
          ({ mutexRefs := subRefMap (mapSet km.mutexRefs k (m, rc + 1)) k,
             handles := km.handles,
             grants := km.grants,
             nextId := km.nextId }, .unavailable) := by
        simp only [KMState.tryLock, track_of_get_some hget, hcan,
          Bool.false_eq_true, if_false]
      have hw : (⟨km, w, run, nulls⟩ : WState K).tryLock k tid =
          ⟨{ mutexRefs := subRefMap (mapSet km.mutexRefs k (m, rc + 1)) k,
             handles := km.handles,
             grants := km.grants,
             nextId := km.nextId },
           w, run, nulls ++ [tid]⟩ := by
        simp only [WState.tryLock, hkm]
      have ha : ASMState.tryLock (projW ⟨km, w, run, nulls⟩) k tid =
          ⟨subRefMap (mapSet (projRefs w km.mutexRefs) k (projMutex w m, rc + 1)) k,
           run.map Prod.snd, nulls ++ [tid]⟩ := by
        simp only [ASMState.tryLock, ASMState.track, projW, h2, canGrantEx_proj,
          hcan, Bool.false_eq_true, if_false]
      rw [hw, ha]
      refine ⟨winv_fail_aux hinv hget _, ?_⟩
      simp only [projW]
      rw [projRefs_subRefMap, projRefs_mapSet]

theorem tryLockShared_sim (km : KMState K) (w : List (Nat × Nat))
    (run : List (Nat × Nat × K × ReqKind)) (nulls : List Nat) (k : K) (tid : Nat)
    (hinv : WInv ⟨km, w, run, nulls⟩) :
    WInv ((⟨km, w, run, nulls⟩ : WState K).tryLockShared k tid) ∧
    projW ((⟨km, w, run, nulls⟩ : WState K).tryLockShared k tid)
      = ASMState.tryLockShared (projW ⟨km, w, run, nulls⟩) k tid := by
  rcases hget : mapGet km.mutexRefs k with _ | ⟨m, rc⟩
  · have hkm : km.tryLockShared k =
        ({ mutexRefs := km.mutexRefs ++ [(k, (SharedMutex.new.grantSh, 1))],
           handles := km.handles ++ [⟨km.nextId, k, .sh, false⟩],
           grants := km.grants ++ [km.nextId],
           nextId := km.nextId + 1 }, .granted km.nextId) := by
      simp only [KMState.tryLockShared, track_of_get_none hget, canGrantSh_new,
        if_true, KMState.issue, setMutexAt, mapSet_of_get_none, mapGet_middle,
        mapSet_middle, hget, List.map_cons, List.map_nil]
    have hw : (⟨km, w, run, nulls⟩ : WState K).tryLockShared k tid =
        ⟨{ mutexRefs := km.mutexRefs ++ [(k, (SharedMutex.new.grantSh, 1))],
           handles := km.handles ++ [⟨km.nextId, k, .sh, false⟩],
           grants := km.grants ++ [km.nextId],
           nextId := km.nextId + 1 },
         w, run ++ [(km.nextId, tid, k, .sh)], nulls⟩ := by
      simp only [WState.tryLockShared, hkm]
    have h2 : mapGet (projRefs w km.mutexRefs) k = none := by
      rw [mapGet_projRefs, hget]
      rfl
    have ha : ASMState.tryLockShared (projW ⟨km, w, run, nulls⟩) k tid =
        ⟨projRefs w km.mutexRefs ++ [(k, (SharedMutex.new.grantSh, 1))],
         run.map Prod.snd ++ [(tid, k, .sh)], nulls⟩ := by
      simp only [ASMState.tryLockShared, ASMState.track, projW, h2, canGrantSh_new,
        if_true, setMutexAt, mapSet_of_get_none, mapGet_middle, mapSet_middle]
    rw [hw, ha]
    refine ⟨winv_grant_aux hinv ?_ k tid .sh, ?_⟩
    · simp [ridsOf_append, ridsOf_single, SharedMutex.grantSh, SharedMutex.new]
    · simp [projW, projRefs, projMutex, SharedMutex.grantSh, SharedMutex.new,
        HolderState.incShared]
  · obtain ⟨l1, l2, hdecomp, hl1none, hsetfn, hdelfn⟩ := get_decomp hget
    have h2 : mapGet (projRefs w km.mutexRefs) k = some (projMutex w m, rc) := by
      rw [mapGet_projRefs, hget]
      rfl
    have hQ : projRefs w km.mutexRefs
        = projRefs w l1 ++ (k, (projMutex w m, rc)) :: projRefs w l2 := by
      rw [hdecomp]
      simp [projRefs]
    have hkeys : mapGet (projRefs w l1) k = none := by
      rw [mapGet_projRefs, hl1none]
      rfl
    by_cases hcan : m.canGrantSh
    · have hkm : km.tryLockShared k =
          ({ mutexRefs := l1 ++ (k, (m.grantSh, rc + 1)) :: l2,
             handles := km.handles ++ [⟨km.nextId, k, .sh, false⟩],
             grants := km.grants ++ [km.nextId],
             nextId := km.nextId + 1 }, .granted km.nextId) := by
        simp only [KMState.tryLockShared, track_of_get_some hget, hcan, if_true,
          KMState.issue, hsetfn, setMutexAt, mapGet_middle, mapSet_middle,
          hl1none, List.map_cons, List.map_nil]
      have hw : (⟨km, w, run, nulls⟩ : WState K).tryLockShared k tid =
          ⟨{ mutexRefs := l1 ++ (k, (m.grantSh, rc + 1)) :: l2,
             handles := km.handles ++ [⟨km.nextId, k, .sh, false⟩],
             grants := km.grants ++ [km.nextId],
             nextId := km.nextId + 1 },
           w, run ++ [(km.nextId, tid, k, .sh)], nulls⟩ := by
        simp only [WState.tryLockShared, hkm]
      have ha : ASMState.tryLockShared (projW ⟨km, w, run, nulls⟩) k tid =
          ⟨projRefs w l1 ++ (k, ((projMutex w m).grantSh, rc + 1)) :: projRefs w l2,
           run.map Prod.snd ++ [(tid, k, .sh)], nulls⟩ := by
        simp only [ASMState.tryLockShared, ASMState.track, projW, h2,
          canGrantSh_proj, hcan, if_true, hQ, setMutexAt, mapGet_middle,
          mapSet_middle, hkeys]
      rw [hw, ha]
      refine ⟨winv_grant_aux hinv ?_ k tid .sh, ?_⟩
      · rw [hdecomp]
        simp [ridsOf_append, ridsOf_cons, SharedMutex.grantSh]
      · simp only [projW, projRefs, List.map_append, List.map_cons]
        simp [projMutex_grantSh]
    · have hkm : km.tryLockShared k =
          ({ mutexRefs := subRefMap (mapSet km.mutexRefs k (m, rc + 1)) k,
             handles := km.handles,
             grants := km.grants,
             nextId := km.nextId }, .unavailable) := by
        simp only [KMState.tryLockShared, track_of_get_some hget, hcan,
          Bool.false_eq_true, if_false]
      have hw : (⟨km, w, run, nulls⟩ : WState K).tryLockShared k tid =
          ⟨{ mutexRefs := subRefMap (mapSet km.mutexRefs k (m, rc + 1)) k,
             handles := km.handles,
             grants := km.grants,
             nextId := km.nextId },
           w, run, nulls ++ [tid]⟩ := by
        simp only [WState.tryLockShared, hkm]
      have ha : ASMState.tryLockShared (projW ⟨km, w, run, nulls⟩) k tid =
          ⟨subRefMap (mapSet (projRefs w km.mutexRefs) k (projMutex w m, rc + 1)) k,
           run.map Prod.snd, nulls ++ [tid]⟩ := by
        simp only [ASMState.tryLockShared, ASMState.track, projW, h2,
          canGrantSh_proj, hcan, Bool.false_eq_true, if_false]
      rw [hw, ha]
      refine ⟨winv_fail_aux hinv hget _, ?_⟩
      simp only [projW]
      rw [projRefs_subRefMap, projRefs_mapSet]


theorem ridsOf_subRefMap_sublist (refs : List (K × SharedMutex × Nat)) (k : K) :
    (ridsOf (subRefMap refs k)).Sublist (ridsOf refs) := by
  rcases hget : mapGet refs k with _ | ⟨m0, rc0⟩
  · rw [subRefMap, hget]
  · obtain ⟨l1, l2, hdecomp, hl1none, hsetfn, hdelfn⟩ := get_decomp hget
    by_cases h1 : rc0 = 1
    · simp only [subRefMap, hget]
      rw [if_pos h1, hdelfn, hdecomp]
      simp only [ridsOf_append, ridsOf_cons]
      exact (List.sublist_append_right _ _).append_left _
    · simp only [subRefMap, hget]
      rw [if_neg h1, hsetfn (m0, rc0 - 1), hdecomp]
      simp only [ridsOf_append, ridsOf_cons]
      exact List.Sublist.refl _


theorem finish_sim (km : KMState K) (w : List (Nat × Nat))
    (run : List (Nat × Nat × K × ReqKind)) (nulls : List Nat) (tid : Nat)
    (hinv : WInv ⟨km, w, run, nulls⟩) :
    WInv ((⟨km, w, run, nulls⟩ : WState K).finish tid) ∧
    projW ((⟨km, w, run, nulls⟩ : WState K).finish tid)
      = ASMState.finish (projW ⟨km, w, run, nulls⟩) tid := by
  have hinv' := hinv
  obtain ⟨hhb, hqb, hwb, hnd, hrh, hrn⟩ := hinv'
  dsimp only at hhb hqb hwb hnd hrh hrn
  rcases hfindr : run.find? (fun r => r.2.1 == tid) with _ | rf
  · -- no running task carries this id: both implementations do nothing
    have hw : (⟨km, w, run, nulls⟩ : WState K).finish tid
        = ⟨km, w, run, nulls⟩ := by
      simp only [WState.finish, hfindr]
    have hfa : (run.map Prod.snd).find? (fun r => r.1 == tid) = none := by
      rw [find?_map_snd, hfindr]
      rfl
    have ha : ASMState.finish (projW ⟨km, w, run, nulls⟩) tid
        = projW ⟨km, w, run, nulls⟩ := by
      simp only [ASMState.finish, projW, hfa]
    rw [hw, ha]
    exact ⟨hinv, rfl⟩
  · obtain ⟨hid, tid', kf, kd⟩ := rf
    have hpred : tid' = tid := by simpa using List.find?_some hfindr
    subst tid' 
    have hrfmem : (hid, tid, kf, kd) ∈ run := List.mem_of_find?_eq_some hfindr
    have hhf : km.handles.find? (fun g => g.hid == hid)
        = some ⟨hid, kf, kd, false⟩ := hrh _ hrfmem
    have hfa : (run.map Prod.snd).find? (fun r => r.1 == tid)
        = some (tid, kf, kd) := by
      rw [find?_map_snd, hfindr]
      rfl
    have herasef := eraseP_find?_facts hfindr hrn
    have herasedh : ∀ r ∈ run.eraseP (fun q => q.2.1 == tid),
        km.handles.find? (fun g => g.hid == r.1)
          = some ⟨r.1, r.2.2.1, r.2.2.2, false⟩ :=
      fun r hr => hrh r (herasef r hr).1
    have hkeephrh : ∀ r ∈ run.eraseP (fun q => q.2.1 == tid),
        (km.handles.map (fun g : KHandle K =>
            if g.hid = hid then { g with unlocked := true } else g)).find?
          (fun g => g.hid == r.1)
          = some ⟨r.1, r.2.2.1, r.2.2.2, false⟩ := by
      intro r hr
      rw [find?_map_markHid, herasedh r hr]
      have hne : r.1 ≠ hid := (herasef r hr).2
      simp [hne]
    have hkeepnd : ((run.eraseP (fun q => q.2.1 == tid)).map
        (fun r => r.1)).Nodup :=
      ((List.eraseP_sublist run).map _).nodup hrn
    have hkeepmemh : ∀ x ∈ (run.eraseP (fun q => q.2.1 == tid)).map
        (fun r => r.1), x ∈ km.handles.map KHandle.hid := by
      intro x hx
      obtain ⟨r, hr, rfl⟩ := List.mem_map.1 hx
      exact List.mem_map_of_mem KHandle.hid
        (List.mem_of_find?_eq_some (herasedh r hr))
    rcases hget1 : mapGet (subRefMap km.mutexRefs kf) kf with _ | ⟨m1, rc1⟩
    · -- the entry was evicted by subRef (or absent): no promotion
      have hu : km.unlockR hid =
          ({ mutexRefs := subRefMap km.mutexRefs kf,
             handles := km.handles.map (fun g : KHandle K =>
               if g.hid = hid then { g with unlocked := true } else g),
             grants := km.grants,
             nextId := km.nextId }, []) := by
        simp only [KMState.unlockR, hhf, Bool.false_eq_true, if_false, hget1]
      have hw : (⟨km, w, run, nulls⟩ : WState K).finish tid =
          ⟨{ mutexRefs := subRefMap km.mutexRefs kf,
             handles := km.handles.map (fun g : KHandle K =>
               if g.hid = hid then { g with unlocked := true } else g),
             grants := km.grants,
             nextId := km.nextId },
           w, run.eraseP (fun q => q.2.1 == tid), nulls⟩ := by
        simp only [WState.finish, hfindr, hu, List.map_nil, List.append_nil]
      have hget1a : mapGet (projRefs w (subRefMap km.mutexRefs kf)) kf = none := by
        rw [mapGet_projRefs, hget1]
        rfl
      have ha : ASMState.finish (projW ⟨km, w, run, nulls⟩) tid =
          ⟨subRefMap (projRefs w km.mutexRefs) kf,
           (run.map Prod.snd).eraseP (fun q => q.1 == tid), nulls⟩ := by
        have hget1b : mapGet (subRefMap (projRefs w km.mutexRefs) kf) kf
            = none := by
          rw [← projRefs_subRefMap]
          exact hget1a
        simp only [ASMState.finish, projW, hfa, hget1b]
      rw [hw, ha]
      have hsub := ridsOf_subRefMap_sublist km.mutexRefs kf
      refine ⟨⟨?_, ?_, hwb, ?_, ?_, hkeepnd⟩, ?_⟩
      · intro h hm
        obtain ⟨g, hg, rfl⟩ := List.mem_map.1 hm
        have : (if g.hid = hid then
            ({ g with unlocked := true } : KHandle K) else g).hid = g.hid := by
          by_cases hg2 : g.hid = hid <;> simp [hg2]
        rw [this]
        exact hhb g hg
      · intro i him
        exact hqb i (hsub.subset him)
      · rw [map_markHid_hids]
        exact List.Nodup.sublist (hsub.append_left _) hnd
      · exact hkeephrh
      · simp only [projW]
        rw [projRefs_subRefMap, eraseP_map_snd]
    · -- the entry survives: the release may promote queued requests
      have hu : km.unlockR hid =
          ({ mutexRefs := setMutexAt (subRefMap km.mutexRefs kf) kf
               (m1.releaseKind kd).1,
             handles := (km.handles.map (fun g : KHandle K =>
                 if g.hid = hid then { g with unlocked := true } else g))
               ++ (m1.releaseKind kd).2.map
                 (fun q => ⟨q.rid, kf, q.kind, false⟩),
             grants := km.grants ++ (m1.releaseKind kd).2.map (fun q => q.rid),
             nextId := km.nextId }, (m1.releaseKind kd).2) := by
        simp only [KMState.unlockR, hhf, Bool.false_eq_true, if_false, hget1,
          KMState.issue]
      have hw : (⟨km, w, run, nulls⟩ : WState K).finish tid =
          ⟨{ mutexRefs := setMutexAt (subRefMap km.mutexRefs kf) kf
               (m1.releaseKind kd).1,
             handles := (km.handles.map (fun g : KHandle K =>
                 if g.hid = hid then { g with unlocked := true } else g))
               ++ (m1.releaseKind kd).2.map
                 (fun q => ⟨q.rid, kf, q.kind, false⟩),
             grants := km.grants ++ (m1.releaseKind kd).2.map (fun q => q.rid),
             nextId := km.nextId },
           w,
           run.eraseP (fun q => q.2.1 == tid)
             ++ (m1.releaseKind kd).2.map
               (fun q => (q.rid, (mapGet w q.rid).getD 0, kf, q.kind)),
           nulls⟩ := by
        simp only [WState.finish, hfindr, hu]
      have hget1a : mapGet (projRefs w (subRefMap km.mutexRefs kf)) kf
          = some (projMutex w m1, rc1) := by
        rw [mapGet_projRefs, hget1]
        rfl
      have ha : ASMState.finish (projW ⟨km, w, run, nulls⟩) tid =
          ⟨setMutexAt (subRefMap (projRefs w km.mutexRefs) kf) kf
             ((projMutex w m1).releaseKind kd).1,
           (run.map Prod.snd).eraseP (fun q => q.1 == tid)
             ++ ((projMutex w m1).releaseKind kd).2.map
               (fun q => (q.rid, kf, q.kind)),
           nulls⟩ := by
        have hget1b : mapGet (subRefMap (projRefs w km.mutexRefs) kf) kf
            = some (projMutex w m1, rc1) := by
          rw [← projRefs_subRefMap]
          exact hget1a
        simp only [ASMState.finish, projW, hfa, hget1b]
      rw [hw, ha]
      constructor
      · -- well-formedness after release and promotion
        obtain ⟨L1, L2, hLdecomp, hL1none, hLsetfn, hLdelfn⟩ := get_decomp hget1
        have hrefs2 : setMutexAt (subRefMap km.mutexRefs kf) kf
            (m1.releaseKind kd).1
            = L1 ++ (kf, ((m1.releaseKind kd).1, rc1)) :: L2 := by
          simp only [setMutexAt, hget1]
          exact hLsetfn ((m1.releaseKind kd).1, rc1)
        have hsub := ridsOf_subRefMap_sublist km.mutexRefs kf
        have hqsubP : ∀ q ∈ (m1.releaseKind kd).2, q ∈ m1.waitQueue := by
          rcases releaseKind_queue_decomp m1 kd with ⟨hP, _⟩ | hEq
          · intro q hq
            rw [hP] at hq
            simp at hq
          · intro q hq
            rw [hEq]
            exact List.mem_append_left _ hq
        have hqsubR : ∀ q ∈ (m1.releaseKind kd).1.waitQueue,
            q ∈ m1.waitQueue := by
          rcases releaseKind_queue_decomp m1 kd with ⟨_, hR⟩ | hEq
          · intro q hq
            rw [hR] at hq
            exact hq
          · intro q hq
            rw [hEq]
            exact List.mem_append_right _ hq
        have hmemrefs : ∀ q ∈ m1.waitQueue, q.rid ∈ ridsOf km.mutexRefs :=
          fun q hq => hsub.subset (rid_mem_ridsOf hget1 hq)
        have hPnothid : ∀ q ∈ (m1.releaseKind kd).2,
            q.rid ∉ km.handles.map KHandle.hid := by
          intro q hq hcontra
          have hq2 := hmemrefs q (hqsubP q hq)
          exact (List.nodup_append.1 hnd).2.2 hcontra hq2
        have hids1nd : ((km.handles.map KHandle.hid)
            ++ ridsOf (subRefMap km.mutexRefs kf)).Nodup :=
          List.Nodup.sublist (hsub.append_left _) hnd
        have hrids1nd : (ridsOf (subRefMap km.mutexRefs kf)).Nodup :=
          (List.nodup_append.1 hids1nd).2.1
        have hqm1nd : (m1.waitQueue.map WaitReq.rid).Nodup := by
          have : ((m1.waitQueue.map WaitReq.rid)).Sublist
              (ridsOf (subRefMap km.mutexRefs kf)) := by
            rw [hLdecomp]
            simp only [ridsOf_append, ridsOf_cons]
            exact (List.sublist_append_left _ _).trans
              (List.sublist_append_right _ _)
          exact this.nodup hrids1nd
        have hPnd : ((m1.releaseKind kd).2.map WaitReq.rid).Nodup := by
          rcases releaseKind_queue_decomp m1 kd with ⟨hP, _⟩ | hEq
          · rw [hP]
            exact List.nodup_nil
          · rw [hEq] at hqm1nd
            simp only [List.map_append] at hqm1nd
            exact (List.nodup_append.1 hqm1nd).1
        rw [hrefs2]
        refine ⟨?_, ?_, hwb, ?_, ?_, ?_⟩
        · intro h hm
          rcases List.mem_append.1 hm with hm | hm
          · obtain ⟨g, hg, rfl⟩ := List.mem_map.1 hm
            have : (if g.hid = hid then
                ({ g with unlocked := true } : KHandle K) else g).hid = g.hid := by
              by_cases hg2 : g.hid = hid <;> simp [hg2]
            rw [this]
            exact hhb g hg
          · obtain ⟨q, hq, rfl⟩ := List.mem_map.1 hm
            exact hqb _ (hmemrefs q (hqsubP q hq))
        · intro i him
          rw [ridsOf_append, ridsOf_cons] at him
          rcases List.mem_append.1 him with him | him
          · refine hqb i (hsub.subset ?_)
            rw [hLdecomp, ridsOf_append, ridsOf_cons]
            exact List.mem_append_left _ him
          rcases List.mem_append.1 him with him | him
          · obtain ⟨q, hq, rfl⟩ := List.mem_map.1 him
            exact hqb _ (hmemrefs q (hqsubR q hq))
          · refine hqb i (hsub.subset ?_)
            rw [hLdecomp, ridsOf_append, ridsOf_cons]
            exact List.mem_append_right _ (List.mem_append_right _ him)
        · -- global id distinctness after moving promoted rids to handles
          simp only [List.map_append, map_markHid_hids, ridsOf_append,
            ridsOf_cons]
          have hnewhids : ((m1.releaseKind kd).2.map
              (fun q => (⟨q.rid, kf, q.kind, false⟩ : KHandle K))).map
                KHandle.hid
              = (m1.releaseKind kd).2.map WaitReq.rid := by
            rw [List.map_map]
            rfl
          rw [hnewhids]
          have hids1nd2 := hids1nd
          rw [hLdecomp] at hids1nd2
          simp only [ridsOf_append, ridsOf_cons] at hids1nd2
          rcases releaseKind_queue_decomp m1 kd with ⟨hP, hR⟩ | hEq
          · rw [hP, hR]
            simpa using hids1nd2
          · rw [hEq] at hids1nd2
            simp only [List.map_append] at hids1nd2
            simp only [List.append_assoc] at hids1nd2 ⊢
            exact nodup_reorder hids1nd2
        · intro r hr
          rcases List.mem_append.1 hr with hr | hr
          · exact find?_append_some (hkeephrh r hr)
          · obtain ⟨q, hq, rfl⟩ := List.mem_map.1 hr
            rw [List.find?_append]
            have hnone : (km.handles.map (fun g : KHandle K =>
                if g.hid = hid then { g with unlocked := true } else g)).find?
                (fun g => g.hid == q.rid) = none := by
              rw [find?_map_markHid]
              rw [find?_handles_none (hPnothid q hq)]
              rfl
            rw [hnone]
            have := find?_admit_self kf hPnd hq
            simpa using this
        · simp only [List.map_append, List.map_map]
          rw [List.nodup_append]
          refine ⟨hkeepnd, ?_, ?_⟩
          · simpa using hPnd
          · intro x hx hx2
            have hxh := hkeepmemh x hx
            simp only [List.mem_map, Function.comp] at hx2
            obtain ⟨q, hq, rfl⟩ := hx2
            exact hPnothid q hq hxh
      · -- projection equality
        simp only [projW, List.map_append, List.map_map]
        rw [projRefs_setMutexAt, projRefs_subRefMap, eraseP_map_snd,
          releaseKind_proj]
        simp only [List.map_map]
        rfl


theorem step_sim (s : WState K) (e : AsyncOp K) (hinv : WInv s) :
    WInv (s.step e) ∧ projW (s.step e) = ASMState.step (projW s) e := by
  obtain ⟨km, w, run, nulls⟩ := s
  cases e with
  | lock k tid => exact lock_sim km w run nulls k tid hinv
  | tryLock k tid => exact tryLock_sim km w run nulls k tid hinv
  | lockShared k tid => exact lockShared_sim km w run nulls k tid hinv
  | tryLockShared k tid => exact tryLockShared_sim km w run nulls k tid hinv
  | finish tid => exact finish_sim km w run nulls tid hinv

theorem run_sim (es : List (AsyncOp K)) :
    WInv (WState.run es) ∧ projW (WState.run es) = ASMState.run es := by
  rw [WState.run, ASMState.run]
  suffices h : ∀ (s : WState K) (a : ASMState K), WInv s → projW s = a →
      WInv (es.foldl WState.step s) ∧
        projW (es.foldl WState.step s) = es.foldl ASMState.step a by
    refine h _ _ ?_ rfl
    refine ⟨?_, ?_, ?_, ?_, ?_, ?_⟩ <;>
      simp [WState.init, KMState.init, ridsOf]
  induction es with
  | nil =>
    intro s a hinv hproj
    exact ⟨hinv, hproj⟩
  | cons e rest ih =>
    intro s a hinv hproj
    obtain ⟨hinv', hproj'⟩ := step_sim s e hinv
    subst hproj
    exact ih _ _ hinv' hproj'

end SimSteps

/-! Evaluation of one transient-key round (acquire a fresh key, release at
once), used for the no-leak property. -/

theorem acquireRelease_empty (s : KMState K) (k : K) (kind : ReqKind)
    (hrefs : s.mutexRefs = [])
    (hh : ∀ h ∈ s.handles, h.hid < s.nextId) :
    acquireRelease s (k, kind) =
      { mutexRefs := [],
        handles := s.handles ++ [⟨s.nextId, k, kind, true⟩],
        grants := s.grants ++ [s.nextId],
        nextId := s.nextId + 1 } := by
  have hget : mapGet s.mutexRefs k = none := by rw [hrefs]; rfl
  have hfind : ∀ (kd : ReqKind),
      (s.handles ++ [(⟨s.nextId, k, kd, false⟩ : KHandle K)]).find?
          (fun g => g.hid == s.nextId)
        = some (⟨s.nextId, k, kd, false⟩ : KHandle K) := by
    intro kd
    rw [List.find?_append, find?_none_of_lt hh]
    simp [List.find?]
  cases kind with
  | ex =>
    have hlock : s.lock k =
        ({ mutexRefs := [(k, ⟨.exclusiveHeld, []⟩, 1)],
           handles := s.handles ++ [⟨s.nextId, k, .ex, false⟩],
           grants := s.grants ++ [s.nextId],
           nextId := s.nextId + 1 }, .granted s.nextId) := by
      simp only [KMState.lock, track_of_get_none hget, canGrantEx_new, if_true,
        KMState.issue]
      rw [hrefs]
      simp [mapSet, setMutexAt, mapGet, SharedMutex.grantEx, SharedMutex.new]
    simp only [acquireRelease, hlock]
    rw [KMState.unlock, KMState.unlockR]
    simp only [hfind ReqKind.ex]
    simp [subRefMap, mapGet, mapDelete, List.map_append, map_mark_id hh]
  | sh =>
    have hlock : s.lockShared k =
        ({ mutexRefs := [(k, ⟨.sharedHeld 1, []⟩, 1)],
           handles := s.handles ++ [⟨s.nextId, k, .sh, false⟩],
           grants := s.grants ++ [s.nextId],
           nextId := s.nextId + 1 }, .granted s.nextId) := by
      simp only [KMState.lockShared, track_of_get_none hget, canGrantSh_new, if_true,
        KMState.issue]
      rw [hrefs]
      simp [mapSet, setMutexAt, mapGet, SharedMutex.grantSh, SharedMutex.new,
        HolderState.incShared]
    simp only [acquireRelease, hlock]
    rw [KMState.unlock, KMState.unlockR]
    simp only [hfind ReqKind.sh]
    simp [subRefMap, mapGet, mapDelete, List.map_append, map_mark_id hh]

/-- C3: running any sequence of transient-key rounds — each round acquires a
key (shared or exclusive) and immediately fully releases it, with no other
outstanding handle or pending request — leaves the registry's key-to-entry
map empty: no per-key bookkeeping survives. -/
theorem c3_transient_keys_leave_empty_registry (ps : List (Nat × ReqKind)) :
    (runRounds ps).mutexRefs = [] := by
  rw [runRounds]
  suffices h : ∀ (s : KMState Nat), s.mutexRefs = [] →
      (∀ h ∈ s.handles, h.hid < s.nextId) →
      (ps.foldl acquireRelease s).mutexRefs = [] by
    exact h _ rfl (by simp [KMState.init])
  induction ps with
  | nil =>
    intro s h1 _
    exact h1
  | cons p rest ih =>
    intro s h1 h2
    rw [List.foldl_cons]
    obtain ⟨k, kind⟩ := p
    rw [acquireRelease_empty s k kind h1 h2]
    apply ih
    · rfl
    · intro h hm
      simp only [List.mem_append, List.mem_singleton] at hm
      rcases hm with hm | hm
      · have := h2 h hm
        simp only []
        omega
      · subst hm
        simp

/-- C10: the standalone `AsyncKeyedMutex` (with its own map of
`AsyncSharedMutex` plus refCount and a task-wrapping `finally`) and the
`KeyedMutex`-wrapping `AsyncKeyedMutex` are observationally equivalent:
for every sequence of acquisition calls and task completions over the same
keys and tasks, projecting away the wrapper's internal handle indirection
yields exactly the standalone state — in particular both report the same
`null` results for failed try-variants, run the same tasks, and hold a
per-key map entry for the same keys (so both are empty together once no
task runs and nothing is pending). -/
theorem c10_wrapper_equiv_standalone (es : List (AsyncOp Nat)) :
    AsyncWrapper.projW (AsyncWrapper.WState.run es)
        = AsyncStandalone.ASMState.run es ∧
    (AsyncWrapper.WState.run es).nullResults
        = (AsyncStandalone.ASMState.run es).nullResults ∧
    ((AsyncWrapper.WState.run es).km.mutexRefs = []
        ↔ (AsyncStandalone.ASMState.run es).mutexRefs = []) := by
  have h := (run_sim es).2
  refine ⟨h, ?_, ?_⟩
  · rw [← h]
    rfl
  · rw [← h]
    simp only [AsyncWrapper.projW, AsyncWrapper.projRefs]
    constructor
    · intro he
      rw [he]
      rfl
    · intro he
      exact List.map_eq_nil_iff.1 he

end KeyedMutexModel
